import Mathlib

/-! The Lua stand-alone console of Apollo (`src/lua.c`).

A shallow embedding of the console front end: the statement accumulator
(`pushline`, `addreturn`, `multiline`, `loadline`), the protected evaluator
(`msghandler`, `report`, `docall` with the interrupt bridge `laction` /
`lstop`), the readline completion engine (`lua_rl_dmadd`, `lua_rl_getfield`,
`lua_rl_complete`) and the option scanner (`collectargs`).

Conventions.
* A character buffer is a `List Char`; the C string it holds is `cstr b`, the
  characters before the first NUL, and reading at or past the end gives NUL.
* A Lua string is a `List Char` of explicit length (it may contain NUL).
* The Lua stack is a `List Value` with the top of the stack first: index `-1`
  is the head, index `1` the last element.
* What lives in the Lua library (the compiler, the value of a global, number
  formatting, status codes of `lua.h`) is a field of `Runtime`.
* The line source holds a finite sequence of buffers and then reports no
  input; every loop of the model recurses on the code's own counter or on that
  sequence, so every function is total.
* Numbers carry an integer; `isalpha` and `isdigit` are those of the C locale.
* Allocation (`malloc`, `realloc`) is assumed to succeed.
-/

namespace Apollo

/-! ## C strings -/

/-- The terminator of C strings. -/
def NUL : Char := Char.ofNat 0

/-- The C string held in a buffer: the characters before the first NUL. -/
def cstr (b : List Char) : List Char := b.takeWhile (fun c => c != NUL)

/-- `strlen(b)`. -/
def strlen (b : List Char) : Nat := (cstr b).length

/-- `b[i]` for a buffer, the terminator when `i` is at or past the end. -/
def charAt (b : List Char) (i : Nat) : Char := b.getD i NUL

/-- `strcmp(a, b) == 0`: both C strings hold the same characters. -/
def streq : List Char → List Char → Bool
  | [], [] => true
  | [], y :: _ => y == NUL
  | x :: _, [] => x == NUL
  | x :: a, y :: b => if x == NUL then y == NUL else x == y && streq a b

/-- `strncmp(a, b, n) == 0`: the C strings agree on their first `n` characters,
a comparison that stops at a terminator. -/
def strneq : List Char → List Char → Nat → Bool
  | _, _, 0 => true
  | [], [], _ + 1 => true
  | [], y :: _, _ + 1 => y == NUL
  | x :: _, [], _ + 1 => x == NUL
  | x :: a, y :: b, n + 1 => if x == NUL then y == NUL else x == y && strneq a b n

/-! ## Lua values -/

/-- The basic types of Lua values (`LUA_TNIL` ... `LUA_TTHREAD`). -/
inductive LuaType where
  | tnil | tboolean | tlightuserdata | tnumber | tstring | ttable | tfunction
  | tuserdata | tthread
  deriving DecidableEq, Repr

/-- A Lua value; tables, functions, full userdata and threads are references. -/
inductive Value where
  | nil
  | bool (b : Bool)
  | lightuserdata (p : Nat)
  | number (n : Int)
  | str (s : List Char)
  | table (r : Nat)
  | func (r : Nat)
  | userdata (r : Nat)
  | thread (r : Nat)
  deriving DecidableEq, Repr

/-- `lua_type`. -/
def lua_type : Value → LuaType
  | .nil => .tnil
  | .bool _ => .tboolean
  | .lightuserdata _ => .tlightuserdata
  | .number _ => .tnumber
  | .str _ => .tstring
  | .table _ => .ttable
  | .func _ => .tfunction
  | .userdata _ => .tuserdata
  | .thread _ => .tthread

/-- What the console takes from the Lua library. -/
structure Runtime where
  /-- Status `LUA_OK` of `lua.h`. -/
  LUA_OK : Int
  /-- Status `LUA_ERRSYNTAX` of `lua.h`. -/
  LUA_ERRSYNTAX : Int
  /-- The compiler, `luaL_loadbuffer(L, s, len, "=stdin")`: the status and the
  value it pushes (the compiled chunk, or the error message). -/
  loadbuffer : List Char → Int × Value
  /-- The value `lua_getglobal` pushes for a global name. -/
  getglobal : List Char → Value
  /-- The text a number converts to (`lua_tolstring` on a number). -/
  fmtnumber : Int → List Char

/-- `lua_tolstring`: the Lua string of a string or number, NULL otherwise. -/
def lua_tolstring (R : Runtime) : Value → Option (List Char)
  | .str s => some s
  | .number n => some (R.fmtnumber n)
  | _ => none

/-- `lua_tostring`: the same as a C string, which ends at the first NUL. -/
def lua_tostring (R : Runtime) (v : Value) : Option (List Char) :=
  (lua_tolstring R v).map cstr

/-! ## The statement accumulator -/

/-- The console's view of the Lua state while a statement is read. -/
structure Console where
  /-- The Lua stack, top first. -/
  stack : List Value
  /-- The `firstline` flag of every `lua_readline` call made, in order. -/
  prompts : List Bool
  /-- The texts handed to `luaL_loadbuffer`, in order. -/
  loads : List (List Char)
  /-- The lines saved with `lua_saveline`, in order. -/
  history : List (List Char)
  deriving DecidableEq, Repr

/-- `lua_push*`. -/
def push (v : Value) (c : Console) : Console := { c with stack := v :: c.stack }

/-- `lua_pop(L, n)`. -/
def pop (n : Nat) (c : Console) : Console := { c with stack := c.stack.drop n }

/-- The value at index `-1`. -/
def top (c : Console) : Value := c.stack.headD .nil

/-- The value at index `1`. -/
def bottom (c : Console) : Value := c.stack.getLastD .nil

/-- `lua_remove(L, -2)`. -/
def removeSecond (c : Console) : Console :=
  match c.stack with
  | a :: _ :: rest => { c with stack := a :: rest }
  | _ => c

/-- `lua_remove(L, 1)`. -/
def removeBottom (c : Console) : Console := { c with stack := c.stack.dropLast }

/-- `lua_insert(L, -2)`: the top goes under the value below it. -/
def insertSecond (c : Console) : Console :=
  match c.stack with
  | a :: b :: rest => { c with stack := b :: a :: rest }
  | _ => c

/-- `lua_concat(L, 3)` on three strings. -/
def concat3 (c : Console) : Console :=
  match c.stack with
  | .str z :: .str y :: .str x :: rest => { c with stack := .str (x ++ y ++ z) :: rest }
  | _ => c

/-- `lua_saveline`. -/
def saveline (line : List Char) (c : Console) : Console :=
  { c with history := c.history ++ [line] }

/-- The call `luaL_loadbuffer(L, s, len, "=stdin")`: pushes the compiler's value. -/
def loadbuffer (R : Runtime) (s : List Char) (c : Console) : Int × Console :=
  ((R.loadbuffer s).1, push (R.loadbuffer s).2 { c with loads := c.loads ++ [s] })

/-- What a stack slot holds after `lua_tostring` was called on it: a number is
converted to its string in place, any other value stays. -/
def converted (R : Runtime) : Value → Value
  | .number n => .str (R.fmtnumber n)
  | v => v

/-- `get_prompt`: leaves the value of `_PROMPT` or `_PROMPT2` on the stack, a
numeric one converted to a string by the `lua_tostring` call. -/
def get_prompt (R : Runtime) (firstline : Bool) (c : Console) : Console :=
  push (converted R (R.getglobal (if firstline then "_PROMPT".toList else "_PROMPT2".toList))) c

/-- The mark of error messages for incomplete statements. -/
def EOFMARK : List Char := "<eof>".toList

/-- `marklen`. -/
def marklen : Nat := 5

/-- `incomplete`: 1 when `status` is a syntax error whose message, on top of
the stack, ends with the mark; the message is then popped. The messages of the
compiler are strings; for a number on top `lua_tolstring` would also rewrite
the slot as a string, which the model does not record. -/
def incomplete (R : Runtime) (status : Int) (c : Console) : Bool × Console :=
  if status == R.LUA_ERRSYNTAX then
    match lua_tolstring R (top c) with
    | some msg =>
      let lmsg := msg.length
      if lmsg >= marklen && streq (msg.drop (lmsg - marklen)) EOFMARK then
        (true, pop 1 c)
      else (false, c)
    | none => (false, c)
  else (false, c)

/-- The string `pushline` pushes for the buffer `b` that `lua_readline` filled. -/
def pushedLine (firstline : Bool) (b : List Char) : List Char :=
  let l := strlen b
  let stripped := l > 0 && charAt b (l - 1) == '\n'
  let b := if stripped then b.set (l - 1) NUL else b
  let l := if stripped then l - 1 else l
  if firstline && charAt b 0 == '=' then
    "return ".toList ++ cstr (b.drop 1)
  else
    b.take l

/-- `pushline`: `line` is what `lua_readline` delivers, `none` for no input.
On no input the prompt value stays on the stack. -/
def pushline (R : Runtime) (firstline : Bool) (line : Option (List Char))
    (c : Console) : Bool × Console :=
  let c := get_prompt R firstline c
  let c := { c with prompts := c.prompts ++ [firstline] }
  match line with
  | none => (false, c)
  | some b => (true, push (.str (pushedLine firstline b)) (pop 1 c))

/-- `addreturn`: tries the line on the stack as `return <line>;`. -/
def addreturn (R : Runtime) (c : Console) : Int × Console :=
  let line := (lua_tostring R (top c)).getD []
  let retline := "return ".toList ++ line ++ [';']
  let c := push (.str retline) c
  let r := loadbuffer R (cstr retline) c
  if r.1 == R.LUA_OK then
    let c := removeSecond r.2
    (r.1, if charAt line 0 != NUL then saveline line c else c)
  else (r.1, pop 2 r.2)

/-- `multiline`: `input` is what the line source still holds; the result also
gives what it holds afterwards. -/
def multiline (R : Runtime) : List (List Char) → Console → Int × Console × List (List Char)
  | input, c =>
    let line := (lua_tolstring R (bottom c)).getD []
    let r := loadbuffer R line c
    let i := incomplete R r.1 r.2
    if i.1 then
      match input with
      | [] => (r.1, saveline (cstr line) (pushline R false none i.2).2, [])
      | b :: rest =>
        multiline R rest (concat3 (insertSecond (push (.str ['\n'])
          (pushline R false (some b) i.2).2)))
    else (r.1, saveline (cstr line) i.2, input)

/-- `loadline`: the status, the console and what the line source still holds. -/
def loadline (R : Runtime) (input : List (List Char)) (c : Console) :
    Int × Console × List (List Char) :=
  let c := { c with stack := [] }
  match input with
  | [] => (-1, (pushline R true none c).2, [])
  | b :: rest =>
    let c := (pushline R true (some b) c).2
    let a := addreturn R c
    if a.1 != R.LUA_OK then
      let m := multiline R rest a.2
      (m.1, removeBottom m.2.1, m.2.2)
    else (a.1, removeBottom a.2, rest)

/-! ## The namespace graph -/

/-- A table: the pairs `lua_next` yields, in its order, and the metatable. -/
structure LuaTable where
  /-- The key and value of every entry. -/
  entries : List (Value × Value)
  /-- The table that is its metatable, if any. -/
  metatable : Option Nat

/-- The part of the Lua state the completion engine reads. -/
structure LuaState where
  /-- The table behind a table reference. -/
  tables : Nat → LuaTable
  /-- The metatable of a full userdata. -/
  udmeta : Nat → Option Nat
  /-- The metatable shared by all values of a type that is neither table nor
  full userdata. -/
  typemeta : LuaType → Option Nat
  /-- What `lua_pushglobaltable` pushes. -/
  globals : Value

/-- `lua_getmetatable`: the metatable of a value, if it has one. -/
def lua_getmetatable (st : LuaState) : Value → Option Nat
  | .table r => (st.tables r).metatable
  | .userdata r => st.udmeta r
  | v => st.typemeta (lua_type v)

/-- `lua_rawget` on the table `t`. -/
def lua_rawget (st : LuaState) (t : Nat) (k : Value) : Value :=
  match (st.tables t).entries.find? (fun e => e.1 == k) with
  | some e => e.2
  | none => .nil

/-- `lua_rl_getmetaindex`: the `__index` field of the metatable of `obj`; it
fails without a metatable, on a nil `__index` and on one raw-equal to `obj`. -/
def lua_rl_getmetaindex (st : LuaState) (obj : Value) : Option Value :=
  match lua_getmetatable st obj with
  | none => none
  | some mt =>
    let idx := lua_rawget st mt (.str "__index".toList)
    if idx == .nil || idx == obj then none else some idx

/-- The outcome of `lua_rl_getfield`, with the nodes its loop body ran on. -/
structure Lookup where
  /-- The value left on the stack, `none` when the lookup fails. -/
  result : Option Value
  /-- The nodes examined, in order. -/
  examined : List Value
  deriving DecidableEq, Repr

/-- The raw lookup in the body of `lua_rl_getfield`: nil unless `obj` is a
table holding the key. -/
def tableField (st : LuaState) (obj : Value) (key : List Char) : Value :=
  match obj with
  | .table t => lua_rawget st t (.str key)
  | _ => .nil

/-- The loop of `lua_rl_getfield`, entered with the counter at `i`. -/
def getfieldFrom (st : LuaState) (key : List Char) : Nat → Value → Lookup
  | 0, obj =>
    if tableField st obj key != .nil then ⟨some (tableField st obj key), [obj]⟩
    else ⟨none, [obj]⟩
  | i + 1, obj =>
    if tableField st obj key != .nil then ⟨some (tableField st obj key), [obj]⟩
    else if 0 < i then
      match lua_rl_getmetaindex st obj with
      | some next =>
        ⟨(getfieldFrom st key i next).result, obj :: (getfieldFrom st key i next).examined⟩
      | none => ⟨none, [obj]⟩
    else ⟨none, [obj]⟩

/-- `lua_rl_getfield`: the field `key` of `obj`, metamethods not called. -/
def lua_rl_getfield (st : LuaState) (obj : Value) (key : List Char) : Lookup :=
  getfieldFrom st key 20 obj

/-! ## The match list -/

/-- The reserved keywords. -/
def lua_rl_keywords : List (List Char) :=
  ["and".toList, "break".toList, "do".toList, "else".toList, "elseif".toList,
   "end".toList, "false".toList, "for".toList, "function".toList, "goto".toList,
   "if".toList, "in".toList, "local".toList, "nil".toList, "not".toList, "or".toList,
   "repeat".toList, "return".toList, "then".toList, "true".toList, "until".toList,
   "while".toList]

/-- `isalpha` in the C locale. -/
def isalpha (c : Char) : Bool := c.isAlpha

/-- `isdigit`. -/
def isdigit (c : Char) : Bool := c.isDigit

/-- The loop of `valididentifier` over the characters after the first. -/
def valididentifierRest : List Char → Bool
  | [] => true
  | c :: s =>
    if c == NUL then true
    else if !(isalpha c || isdigit c || c == '_') then false
    else valididentifierRest s

/-- `valididentifier`. -/
def valididentifier (s : List Char) : Bool :=
  if !(isalpha (charAt s 0) || charAt s 0 == '_') then false
  else valididentifierRest (s.drop 1)

/-- The match list: `first` is `list[0]`, `items` are `list[1]` to `list[idx]`
(so `idx` is their number); its capacity is not kept. -/
structure dmlist where
  /-- The slot `list[0]`, unset until the common prefix is stored. -/
  first : Option (List Char)
  /-- The slots `list[1]` .. `list[idx]`; `none` is a NULL pointer. -/
  items : List (Option (List Char))
  /-- The length of the common prefix. -/
  matchlen : Nat
  deriving DecidableEq, Repr

/-- The field `idx`. -/
def dmlist.idx (ml : dmlist) : Nat := ml.items.length

/-- The text at `list[1]`. -/
def dmlist.list1 (ml : dmlist) : List Char := (ml.items.headD none).getD []

/-- The list as `lua_rl_complete` initialises it. -/
def dminit : dmlist := { first := none, items := [], matchlen := 0 }

/-- The loop of `lua_rl_dmadd` that counts how far `list[1]` and the new text
agree, up to `matchlen`. -/
def matchRun : List Char → List Char → Nat → Nat
  | x :: a, y :: t, m + 1 => if x == y then matchRun a t m + 1 else 0
  | _, _, _ => 0

/-- `lua_rl_dmadd`: adds prefix + string + suffix and updates the common
prefix length; a NULL string adds a NULL entry. -/
def lua_rl_dmadd (ml : dmlist) (p : List Char) (pn : Nat) (s : Option (List Char))
    (suf : Char) : dmlist :=
  match s with
  | some s =>
    let t := p.take pn ++ cstr s ++ (if suf != NUL then [suf] else [])
    let n := t.length
    let matchlen := if ml.idx == 0 then n else matchRun ml.list1 t ml.matchlen
    { ml with items := ml.items ++ [some t], matchlen := matchlen }
  | none => { ml with items := ml.items ++ [none] }

/-! ## The completion callback -/

/-- The outcome of `lua_rl_complete`, with the nodes its loops ran on. -/
structure Completion where
  /-- The array returned (`list[0]`, the candidates, the NULL terminator), or
  `none` for NULL. -/
  result : Option (List (Option (List Char)))
  /-- The nodes examined by each `lua_rl_getfield` call, one list a call. -/
  lookups : List (List Value)
  /-- The nodes the enumeration loop ran on, each with whether its entries
  were enumerated. -/
  visited : List (Value × Bool)
  deriving DecidableEq, Repr

/-- A dot or a colon. -/
def isSep (c : Char) : Bool := c == '.' || c == ':'

/-- The loop over the span that resolves the path: `k` characters are left, `i`
is the index, `dot` the start of the current segment, `node` the value on the
stack, `log` the lookups so far. It gives the final node and `dot`, or `none`
when a lookup fails. -/
def pathLoop (st : LuaState) (text : List Char) :
    Nat → Nat → Nat → Value → List (List Value) → Option (Value × Nat) × List (List Value)
  | 0, _, dot, node, log => (some (node, dot), log)
  | k + 1, i, dot, node, log =>
    if isSep (charAt text i) then
      match (lua_rl_getfield st node ((text.drop dot).take (i - dot))).result with
      | none =>
        (none, log ++ [(lua_rl_getfield st node ((text.drop dot).take (i - dot))).examined])
      | some v =>
        pathLoop st text k (i + 1) (i + 1) v
          (log ++ [(lua_rl_getfield st node ((text.drop dot).take (i - dot))).examined])
    else pathLoop st text k (i + 1) dot node log

/-- The keyword loop: every keyword that `strncmp` finds equal to the span. -/
def addKeywords (text : List Char) (n : Nat) (ml : dmlist) : dmlist :=
  lua_rl_keywords.foldl
    (fun ml s => if strneq s text n then lua_rl_dmadd ml [] 0 (some s) ' ' else ml) ml

/-- The suffix chosen by the type of the value. -/
def suffixOf (st : LuaState) : Value → Char
  | .table _ => '.'
  | .func _ => '('
  | .userdata u => if (lua_getmetatable st (.userdata u)).isSome then ':' else ' '
  | _ => ' '

/-- The body of the `lua_next` loop for one entry. -/
def addEntry (st : LuaState) (text : List Char) (dot n : Nat) (ml : dmlist)
    (e : Value × Value) : dmlist :=
  match e.1 with
  | .str key =>
    if strneq (cstr key) (text.drop dot) (n - dot) && valididentifier (cstr key) &&
        (charAt (cstr key) 0 != '_' || charAt text dot == '_') then
      lua_rl_dmadd ml text dot (some (cstr key)) (suffixOf st e.2)
    else ml
  | _ => ml

/-- The `lua_next` loop over the entries of a table. -/
def addEntries (st : LuaState) (text : List Char) (dot n : Nat) (ml : dmlist)
    (t : Nat) : dmlist :=
  (st.tables t).entries.foldl (addEntry st text dot n) ml

/-- The test that guards the enumeration of a node. -/
def enumerates (st : LuaState) (loop : Nat) : Value → Bool
  | .table t => loop == 0 || !(Value.table t == st.globals)
  | _ => false

/-- The enumeration loop over the metatable chain: `loop` is the counter and
`k = 20 - loop` what is left of its bound. -/
def enumLoop (st : LuaState) (text : List Char) (dot n : Nat) :
    Nat → Nat → Value → dmlist → List (Value × Bool) → dmlist × List (Value × Bool)
  | 0, _, _, ml, log => (ml, log)
  | k + 1, loop, node, ml, log =>
    let ml :=
      match node with
      | .table t => if enumerates st loop node then addEntries st text dot n ml t else ml
      | _ => ml
    let log := log ++ [(node, enumerates st loop node)]
    if loop + 1 < 20 then
      match lua_rl_getmetaindex st node with
      | some next => enumLoop st text dot n k (loop + 1) next ml log
      | none => (ml, log)
    else (ml, log)

/-- `lua_rl_complete`, called with the word `text` and its span in the line. -/
def lua_rl_complete (st : LuaState) (text : List Char) (start stop : Nat) : Completion :=
  if !(charAt text 0 == NUL || isalpha (charAt text 0) || charAt text 0 == '_') then
    ⟨none, [], []⟩
  else
    let n := stop - start
    let r := pathLoop st text n 0 0 st.globals []
    match r.1 with
    | none => ⟨none, r.2, []⟩
    | some (node, dot) =>
      let ml := if dot == 0 then addKeywords text n dminit else dminit
      let e := enumLoop st text dot n 20 0 node ml []
      if e.1.idx == 0 then ⟨none, r.2, e.2⟩
      else
        let ml := { e.1 with first := some (e.1.list1.take e.1.matchlen) }
        let ml := lua_rl_dmadd ml [] 0 none NUL
        ⟨some (ml.first :: ml.items), r.2, e.2⟩

/-! ## Lines and compiler outcomes, as the console specification words them -/

/-- A line without its trailing newline; only one newline is removed. -/
def chomp (s : List Char) : List Char :=
  if s.getLast? = some '\n' then s.dropLast else s

/-- The message ends with the mark for incomplete statements. -/
def EndsWithMark (msg : List Char) : Prop := ∃ m, msg = m ++ EOFMARK

/-- The compiler reports "incomplete": a syntax error whose message text ends
with the mark. -/
def Incomplete (R : Runtime) (r : Int × Value) : Prop :=
  r.1 = R.LUA_ERRSYNTAX ∧ ∃ msg, lua_tolstring R r.2 = some msg ∧ EndsWithMark msg

/-- The text `addreturn` compiles for the line `l`. -/
def returnText (l : List Char) : List Char := "return ".toList ++ l ++ [';']

/-- The lines `l1`, `ls` joined by single newline separators. -/
def joinLines (l1 : List Char) (ls : List (List Char)) : List Char :=
  ls.foldl (fun acc l => acc ++ '\n' :: l) l1

/-- The texts `multiline` compiles while `k` continuation lines come in: the
first line alone, then with one more line each time. -/
def attempts (l1 : List Char) (ls : List (List Char)) : List (List Char) :=
  (List.range (ls.length + 1)).map (fun j => joinLines l1 (ls.take j))

/-- A console with an empty stack and empty logs. -/
def emptyConsole : Console := { stack := [], prompts := [], loads := [], history := [] }

/-- A small compiler oracle for examples: it knows one expression and one
three-line loop, and reports a syntax error for any other text. -/
def sampleCompile (s : List Char) : Int × Value :=
  if s = "return 1+2;".toList then (0, Value.func 1)
  else if s = "for i=1,3 do".toList then
    (3, Value.str "stdin:1: 'end' expected near <eof>".toList)
  else if s = "for i=1,3 do\nprint(i)".toList then
    (3, Value.str "stdin:2: 'end' expected near <eof>".toList)
  else if s = "for i=1,3 do\nprint(i)\nend".toList then (0, Value.func 2)
  else (3, Value.str "stdin:1: syntax error".toList)

/-- A runtime for examples: status codes of Lua 5.3, no prompt globals. -/
def sampleRuntime : Runtime :=
  { LUA_OK := 0, LUA_ERRSYNTAX := 3, loadbuffer := sampleCompile,
    getglobal := fun _ => Value.nil, fmtnumber := fun _ => [] }

/-! ## Candidates and their common prefix -/

/-- The longest common prefix of two texts. -/
def lcp : List Char → List Char → List Char
  | x :: a, y :: b => if x = y then x :: lcp a b else []
  | _, _ => []

/-- A candidate as `lua_rl_dmadd` receives it: prefix, its length, name, suffix. -/
structure Cand where
  /-- The prefix buffer. -/
  p : List Char
  /-- How much of the prefix is taken. -/
  pn : Nat
  /-- The name. -/
  s : List Char
  /-- The suffix character. -/
  suf : Char

/-- The text of a candidate: prefix, name and suffix character. -/
def Cand.text (c : Cand) : List Char :=
  c.p.take c.pn ++ cstr c.s ++ (if c.suf != NUL then [c.suf] else [])

/-- The candidates added one after the other with `lua_rl_dmadd`. -/
def addAll (cs : List Cand) (ml : dmlist) : dmlist :=
  cs.foldl (fun ml c => lua_rl_dmadd ml c.p c.pn (some c.s) c.suf) ml

/-- The match list holds exactly candidates that satisfy `P`, added in order
to the initial list. -/
def BuiltWith (P : Cand → Prop) (ml : dmlist) : Prop :=
  ∃ cs : List Cand, (∀ c ∈ cs, P c) ∧ ml = addAll cs dminit

/-- A candidate of the keyword loop. -/
def KeywordCand (text : List Char) (n : Nat) (c : Cand) : Prop :=
  c.p = [] ∧ c.pn = 0 ∧ c.suf = ' ' ∧ c.s ∈ lua_rl_keywords ∧ strneq c.s text n = true

/-- A candidate of the enumeration loop. -/
def EntryCand (text : List Char) (dot : Nat) (c : Cand) : Prop :=
  c.p = text ∧ c.pn = dot ∧ c.suf ≠ NUL

/-- What a candidate of `lua_rl_complete` is when the path ended at `dot`. -/
def CompleteCand (text : List Char) (n dot : Nat) (c : Cand) : Prop :=
  (dot = 0 ∧ KeywordCand text n c) ∨ EntryCand text dot c

/-! ## Example namespaces -/

/-- A table with string keys, for examples. -/
def stringTable (es : List (String × Value)) (m : Option Nat) : LuaTable :=
  { entries := es.map (fun e => (Value.str e.1.toList, e.2)), metatable := m }

/-- A namespace for examples. Table 0 is the global table; table 1 is the
library `table`, whose metatable (table 2) sends `__index` back to the globals;
strings and the userdata 0 share the metatable 3, whose `__index` is table 4;
the global `while` is a function, the global `null` a light userdata. -/
def sampleState : LuaState :=
  { tables := fun r =>
      if r = 0 then
        stringTable [("table", .table 1), ("print", .func 1), ("_G", .table 0),
          ("while", .func 7), ("s", .str "hi".toList), ("u", .userdata 0),
          ("a-b", .number 1), ("null", .lightuserdata 0), ("k\x00z", .number 2)] none
      else if r = 1 then stringTable [("insert", .func 2), ("concat", .func 3)] (some 2)
      else if r = 2 then stringTable [("__index", .table 0)] none
      else if r = 3 then stringTable [("__index", .table 4)] none
      else if r = 4 then stringTable [("len", .func 5), ("lower", .func 6)] none
      else stringTable [] none,
    udmeta := fun r => if r = 0 then some 3 else none,
    typemeta := fun t => if t = .tstring ∨ t = .tlightuserdata then some 3 else none,
    globals := .table 0 }

/-! ## The candidates of one table, as the specification words them -/

/-- A valid identifier: the first character a letter or an underscore, every
later character a letter, a digit or an underscore. -/
def identifierSpec : List Char → Bool
  | [] => false
  | c :: rest =>
    (c.isAlpha || c == '_') && rest.all (fun d => d.isAlpha || d.isDigit || d == '_')

/-- The suffix by the kind of value: a dot for a table, a parenthesis for a
function, a colon for a full userdata that has a metatable, a space otherwise. -/
def suffixSpec (st : LuaState) (v : Value) : Char :=
  if lua_type v = .ttable then '.'
  else if lua_type v = .tfunction then '('
  else if lua_type v = .tuserdata ∧ (lua_getmetatable st v).isSome then ':'
  else ' '

/-- The candidate an entry gives for the prefix `pre` and the partial name
`tail`, if any: `s` is the key as a C string. -/
def entrySpec (st : LuaState) (pre tail : List Char) (e : Value × Value) :
    Option (List Char) :=
  match e.1 with
  | .str key =>
    if tail.isPrefixOf (cstr key) && identifierSpec (cstr key) &&
        ((cstr key).head? != some '_' || tail.head? == some '_') then
      some (pre ++ cstr key ++ [suffixSpec st e.2])
    else none
  | _ => none

/-- The candidates a table gives, in the order of its entries. -/
def candidatesSpec (st : LuaState) (pre tail : List Char) (es : List (Value × Value)) :
    List (List Char) :=
  es.filterMap (entrySpec st pre tail)

/-! ## The metatable chain -/

/-- The node `h` hops from `start` on the metatable `__index` chain, if the
chain is that long; the chain ends at a node with no metatable, a nil
`__index`, or an `__index` raw-equal to the node itself. -/
def chainNode (st : LuaState) (start : Value) : Nat → Option Value
  | 0 => some start
  | h + 1 => (chainNode st start h).bind (lua_rl_getmetaindex st)

/-- A chain of 21 tables, `0` to `20`: the metatable of table `r < 20` is table
`100 + r`, whose `__index` is table `r + 1`; only table `20` holds the key `x`.
The global table `200` holds table `0` under `t`. -/
def chainState : LuaState :=
  { tables := fun r =>
      if r < 20 then { entries := [], metatable := some (100 + r) }
      else if r = 20 then stringTable [("x", .number 1)] none
      else if r = 200 then stringTable [("t", .table 0)] none
      else if 100 ≤ r ∧ r < 120 then stringTable [("__index", .table (r - 99))] none
      else stringTable [] none,
    udmeta := fun _ => none,
    typemeta := fun _ => none,
    globals := .table 200 }

/-- The first node holding the key on the chain of `start` is `h` hops away
and holds `v`. -/
def FirstHolder (st : LuaState) (start : Value) (key : List Char) (h : Nat) (v : Value) :
    Prop :=
  ∃ node, chainNode st start h = some node ∧ tableField st node key = v ∧ v ≠ Value.nil ∧
    ∀ h2 < h, ∀ node2, chainNode st start h2 = some node2 → tableField st node2 key = Value.nil

/-- A cyclic namespace: the global table `0` holds table `1` under `t` and
table `5` under `self`; the `__index` of table `1` is table `3` and the
`__index` of table `3` is table `1` again; table `5` is its own metatable and
its own `__index`. -/
def cycleState : LuaState :=
  { tables := fun r =>
      if r = 0 then stringTable [("t", .table 1), ("self", .table 5)] none
      else if r = 1 then stringTable [("a", .number 1)] (some 2)
      else if r = 2 then stringTable [("__index", .table 3)] none
      else if r = 3 then stringTable [("b", .number 2)] (some 4)
      else if r = 4 then stringTable [("__index", .table 1)] none
      else if r = 5 then stringTable [("__index", .table 5), ("c", .number 3)] (some 5)
      else stringTable [] none,
    udmeta := fun _ => none,
    typemeta := fun _ => none,
    globals := .table 0 }

/-! ## The message handler -/

/-- What `msghandler` takes from the Lua library. -/
structure ErrorLib where
  /-- The call `luaL_callmeta(L, 1, "__tostring")` on the error object: `none`
  when it has no such metamethod, else the value the metamethod returned. -/
  callmeta : Value → Option Value
  /-- The name `luaL_typename` gives for a type. -/
  typename : LuaType → List Char
  /-- The string `luaL_traceback(L, L, msg, 1)` pushes for the C string `msg`. -/
  traceback : List Char → List Char

/-- `msghandler`: the value it returns for the error object `payload`. -/
def msghandler (R : Runtime) (E : ErrorLib) (payload : Value) : Value :=
  match lua_tostring R payload with
  | some msg => .str (E.traceback msg)
  | none =>
    match E.callmeta payload with
    | some (.str s) => .str s
    | _ =>
      .str (E.traceback (cstr ("(error object is a ".toList ++
        cstr (E.typename (lua_type payload)) ++ " value)".toList)))

/-- An error library for examples: the error objects are the tables `0` (whose
`__tostring` yields `boom`) and `1` (no metamethod); the traceback appends a
header line. -/
def sampleErrorLib : ErrorLib :=
  { callmeta := fun v => if v = .table 0 then some (.str "boom".toList) else none,
    typename := fun t => if t = .ttable then "table".toList else "other".toList,
    traceback := fun m => m ++ "\nstack traceback:".toList }

/-! ## The interrupt bridge -/

/-- The disposition of SIGINT: `SIG_DFL`, or the handler `laction`. -/
inductive Disposition where
  | sigDfl
  | sigLaction
  deriving DecidableEq, Repr

/-- The state of the bridge: the SIGINT disposition and whether `lstop` is
installed as the hook of `globalL`. -/
structure Bridge where
  /-- What `signal(SIGINT, ...)` last set. -/
  disposition : Disposition
  /-- The hook `lstop` is installed. -/
  hook : Bool
  deriving DecidableEq, Repr

/-- The bridge at rest: default disposition, no hook. -/
def idle : Bridge := { disposition := .sigDfl, hook := false }

/-- `laction`: resets the disposition and installs the hook `lstop`. -/
def laction (_b : Bridge) : Bridge := { disposition := .sigDfl, hook := true }

/-- `lstop`: removes the hook (and then raises "interrupted!"). -/
def lstop (b : Bridge) : Bridge := { b with hook := false }

/-- What can happen while `docall` runs: SIGINT is delivered, or the runtime
reaches a checkpoint (a call, a return or an instruction count) where it runs
the hook if one is installed. -/
inductive Event where
  | sigint
  | checkpoint
  deriving DecidableEq, Repr

/-- One event. The state is the bridge and whether "interrupted!" was raised in
this call; `none` means the process was terminated by the default action. -/
def step (s : Bridge × Bool) : Event → Option (Bridge × Bool)
  | .sigint =>
    match s.1.disposition with
    | .sigLaction => some (laction s.1, s.2)
    | .sigDfl => none
  | .checkpoint => if s.1.hook then some (lstop s.1, true) else some s

/-- The events in order. -/
def run : Bridge × Bool → List Event → Option (Bridge × Bool)
  | s, [] => some s
  | s, e :: es => (step s e).bind (fun s2 => run s2 es)

/-- `docall`, as far as the bridge goes: `signal(SIGINT, laction)`, the events
until `lua_pcall` has returned, `signal(SIGINT, SIG_DFL)`. It gives the bridge
afterwards and whether the call was interrupted, `none` when the process was
terminated. -/
def docall (b : Bridge) (events : List Event) : Option (Bridge × Bool) :=
  (run ({ b with disposition := .sigLaction }, false) events).map
    (fun s => ({ s.1 with disposition := .sigDfl }, s.2))

/-- The hook after the events: installed by the last event if that is a
delivery, removed if it is a checkpoint, as before when nothing happened. -/
def hookAfter (before : Bool) (events : List Event) : Bool :=
  match events.getLast? with
  | some .sigint => true
  | some .checkpoint => false
  | none => before

/-! ## Reporting -/

/-- `report`: when `status` is not `LUA_OK`, the message handed to `l_message`
(`lua_tostring` of the top of the stack, `none` for NULL), which is then
popped; nothing otherwise. -/
def report (R : Runtime) (status : Int) (c : Console) : Option (Option (List Char)) × Console :=
  if status != R.LUA_OK then (some (lua_tostring R (top c)), pop 1 c)
  else (none, c)

/-- The sample runtime with the global `_PROMPT2` set to a string. -/
def promptRuntime : Runtime :=
  { sampleRuntime with
    getglobal := fun name => if name = "_PROMPT2".toList then Value.str ">> ".toList else Value.nil }

/-- The sample runtime with the global `_PROMPT2` set to a number. -/
def numberPromptRuntime : Runtime :=
  { sampleRuntime with
    getglobal := fun name => if name = "_PROMPT2".toList then Value.number 7 else Value.nil,
    fmtnumber := fun _ => "7".toList }

/-! ## Command-line arguments -/

/-- The bit `has_error`: bad option. -/
def has_error : Nat := 1

/-- The bit `has_i`: option `-i`. -/
def has_i : Nat := 2

/-- The bit `has_v`: option `-v`. -/
def has_v : Nat := 4

/-- The bit `has_e`: option `-e`. -/
def has_e : Nat := 8

/-- The bit `has_E`: option `-E`. -/
def has_E : Nat := 16

/-- The loop of `collectargs`: the list holds `argv[i]`, `argv[i+1]`, ... up to
the NULL terminator; `args` is the mask so far. It gives the value returned
and the value left in `*first`. -/
def collectLoop : List (List Char) → Nat → Nat → Nat × Nat
  | [], i, args => (args, i)
  | a :: rest, i, args =>
    if charAt a 0 != '-' then (args, i)
    else if charAt a 1 == '-' then
      if charAt a 2 != NUL then (has_error, i) else (args, i + 1)
    else if charAt a 1 == NUL then (args, i)
    else if charAt a 1 == 'E' then
      if charAt a 2 != NUL then (has_error, i) else collectLoop rest (i + 1) (args ||| has_E)
    else if charAt a 1 == 'i' then
      if charAt a 2 != NUL then (has_error, i)
      else collectLoop rest (i + 1) (args ||| has_i ||| has_v)
    else if charAt a 1 == 'v' then
      if charAt a 2 != NUL then (has_error, i) else collectLoop rest (i + 1) (args ||| has_v)
    else if charAt a 1 == 'e' || charAt a 1 == 'l' then
      if charAt a 2 == NUL then
        match rest with
        | [] => (has_error, i)
        | b :: rest2 =>
          if charAt b 0 == '-' then (has_error, i)
          else collectLoop rest2 (i + 2) (if charAt a 1 == 'e' then args ||| has_e else args)
      else collectLoop rest (i + 1) (if charAt a 1 == 'e' then args ||| has_e else args)
    else (has_error, i)

/-- `collectargs` on `argv[0]`, ..., `argv[argc-1]`: the value returned and the
value left in `*first`. -/
def collectargs (argv : List (List Char)) : Nat × Nat :=
  collectLoop (argv.drop 1) 1 0

/-- The argument `pmain` hands to `print_usage` after an error: `argv[script]`. -/
def badArgument (argv : List (List Char)) : Option (List Char) :=
  if (collectargs argv).1 == has_error then argv[(collectargs argv).2]? else none

/-- A run of arguments that `collectargs` handles as options: `-E`, `-i`, `-v`,
`-e` or `-l` with the argument attached, or `-e` or `-l` followed by an
argument that does not start with a dash. -/
inductive Handled : List (List Char) → Prop where
  | done : Handled []
  | flag (a : List Char) (rest : List (List Char)) :
      a = "-E".toList ∨ a = "-i".toList ∨ a = "-v".toList → Handled rest → Handled (a :: rest)
  | attached (c : Char) (x : List Char) (rest : List (List Char)) :
      c = 'e' ∨ c = 'l' → x ≠ [] → Handled rest → Handled (('-' :: c :: x) :: rest)
  | separate (c : Char) (arg : List Char) (rest : List (List Char)) :
      c = 'e' ∨ c = 'l' → arg.head? ≠ some '-' → Handled rest →
      Handled (['-', c] :: arg :: rest)

/-- An option that is an error: `--` or a flag with extra characters, `-e` or
`-l` with no argument (none follows, or an option follows), or an unknown
letter. -/
def BadOption (bad : List Char) (next : Option (List Char)) : Prop :=
  ∃ c x, bad = '-' :: c :: x ∧
    ((c = '-' ∧ x ≠ []) ∨
     ((c = 'E' ∨ c = 'i' ∨ c = 'v') ∧ x ≠ []) ∨
     ((c = 'e' ∨ c = 'l') ∧ x = [] ∧
       (next = none ∨ ∃ nx, next = some nx ∧ nx.head? = some '-')) ∨
     (c ≠ '-' ∧ c ≠ 'E' ∧ c ≠ 'i' ∧ c ≠ 'v' ∧ c ≠ 'e' ∧ c ≠ 'l'))

/-- The bits an option sets: `-E` sets `has_E`, `-i` sets `has_i` and `has_v`,
`-v` sets `has_v`, `-e` sets `has_e`; anything else sets nothing. -/
def optionBits (a : List Char) : Nat :=
  if a = "-E".toList then has_E
  else if a = "-i".toList then has_i ||| has_v
  else if a = "-v".toList then has_v
  else if "-e".toList <+: a then has_e
  else 0

/-- What the first not-handled argument may be when no `--` precedes it:
nothing (no script), an argument that does not start with a dash, or `-`. -/
def ScriptOrEnd (rem : List (List Char)) : Prop :=
  rem = [] ∨ ∃ s tl, rem = s :: tl ∧ (s.head? ≠ some '-' ∨ s = ['-'])

/-- What `collectargs` may give for the arguments `l` that start at index `i`,
with the mask `args` so far: an error at the first bad option, after handled
options; or the mask of the handled options, with `*first` at the first
argument that is not handled (or one past a closing `--`). -/
def Outcome (l : List (List Char)) (i args : Nat) (r : Nat × Nat) : Prop :=
  (∃ opts bad rem, Handled opts ∧ l = opts ++ bad :: rem ∧ BadOption bad rem.head? ∧
    r = (has_error, i + opts.length)) ∨
  (∃ opts rem, Handled opts ∧
    r.1 = opts.foldl (fun m a => m ||| optionBits a) args ∧
    ((l = opts ++ rem ∧ ScriptOrEnd rem ∧ r.2 = i + opts.length) ∨
     (l = opts ++ "--".toList :: rem ∧ r.2 = i + opts.length + 1)))

/-! ## The candidates of the enumeration, node by node -/

/-- The candidates the `lua_next` loop adds for the entries of table `t`. -/
def tableItems (st : LuaState) (text : List Char) (dot n : Nat) (t : Nat) :
    List (Option (List Char)) :=
  (addEntries st text dot n dminit t).items

/-- What the node at position `idx` of the metatable chain gives: the
candidates of its entries when it is a table and it is the first node or is
not the global table, nothing otherwise (`none`: the chain has ended). -/
def nodeItems (st : LuaState) (text : List Char) (dot n : Nat) (idx : Nat) :
    Option Value → List (Option (List Char))
  | some (.table t) =>
    if idx = 0 ∨ Value.table t ≠ st.globals then tableItems st text dot n t else []
  | _ => []

/-- The candidates of the first 20 nodes of the chain of `start`, in order. -/
def chainItems (st : LuaState) (text : List Char) (dot n : Nat) (start : Value) :
    List (Option (List Char)) :=
  (List.range 20).flatMap (fun i => nodeItems st text dot n i (chainNode st start i))

/-! ## Theorems -/

/-! ## Facts about C strings -/

theorem cstr_no_nul (b : List Char) : ∀ x ∈ cstr b, x ≠ NUL := by
  intro x hx
  have := List.mem_takeWhile_imp hx
  simpa using this

theorem cstr_append (s t : List Char) (hs : ∀ x ∈ s, x ≠ NUL)
    (ht : t = [] ∨ ∃ u, t = NUL :: u) : cstr (s ++ t) = s := by
  induction s with
  | nil =>
    rcases ht with rfl | ⟨u, rfl⟩
    · rfl
    · simp [cstr, List.takeWhile]
  | cons a s ih =>
    have ha : a ≠ NUL := hs a (List.mem_cons_self _ _)
    have hs2 : ∀ x ∈ s, x ≠ NUL := fun x hx => hs x (List.mem_cons_of_mem _ hx)
    have := ih hs2
    simp only [cstr] at this ⊢
    simp [List.takeWhile_cons, ha, this]

theorem cstr_of_no_nul (s : List Char) (hs : ∀ x ∈ s, x ≠ NUL) : cstr s = s := by
  simpa using cstr_append s [] hs (Or.inl rfl)

theorem cstr_split (b : List Char) :
    ∃ t, b = cstr b ++ t ∧ (t = [] ∨ ∃ u, t = NUL :: u) := by
  refine ⟨b.dropWhile (fun c => c != NUL), ?_, ?_⟩
  · exact (List.takeWhile_append_dropWhile _ b).symm
  · induction b with
    | nil => left; rfl
    | cons a b ih =>
      by_cases ha : a = NUL
      · right; exact ⟨b, by simp [List.dropWhile_cons, ha]⟩
      · simpa [List.dropWhile_cons, ha] using ih

theorem cstr_idem (b : List Char) : cstr (cstr b) = cstr b :=
  cstr_of_no_nul _ (cstr_no_nul b)

theorem charAt_append_cons (s t : List Char) (x : Char) :
    charAt (s ++ x :: t) s.length = x := by
  induction s with
  | nil => rfl
  | cons a s ih => simpa [charAt] using ih

theorem take_succ_append_cons (u v : List Char) (y : Char) :
    List.take (u.length + 1) (u ++ y :: v) = u ++ [y] := by
  induction u with
  | nil => simp
  | cons a u ih => simpa using ih

theorem charAt_zero_tail (t : List Char) (ht : t = [] ∨ ∃ u, t = NUL :: u) :
    charAt t 0 = NUL := by
  rcases ht with rfl | ⟨u, rfl⟩ <;> rfl

/-! ## pushline -/

theorem pushedLine_split (firstline : Bool) (s t : List Char)
    (hs : ∀ x ∈ s, x ≠ NUL) (ht : t = [] ∨ ∃ u, t = NUL :: u) :
    pushedLine firstline (s ++ t) =
      if firstline = true ∧ (chomp s).head? = some '=' then
        "return ".toList ++ (chomp s).tail
      else chomp s := by
  have hlen : strlen (s ++ t) = s.length := by simp [strlen, cstr_append s t hs ht]
  have hnl : ('\n' : Char) ≠ NUL := by decide
  have heq : ('=' : Char) ≠ NUL := by decide
  rcases List.eq_nil_or_concat s with rfl | ⟨s1, x, rfl⟩
  · have h0 := charAt_zero_tail t ht
    have hn : ¬ (NUL = '=') := by decide
    have hlen0 : strlen t = 0 := by simpa using hlen
    simp [pushedLine, hlen0, chomp, h0, hn]
  · simp only [List.concat_eq_append] at *
    have hs1 : ∀ y ∈ s1, y ≠ NUL := fun y hy => hs y (by simp [hy])
    have hc : charAt (s1 ++ [x] ++ t) (s1.length + 1 - 1) = x := by
      simpa using charAt_append_cons s1 t x
    by_cases hx : x = '\n'
    · subst hx
      have hset : (s1 ++ ['\n'] ++ t).set (s1.length + 1 - 1) NUL = s1 ++ NUL :: t := by
        simp
      have hch : chomp (s1 ++ ['\n']) = s1 := by simp [chomp]
      simp only [pushedLine, hlen, hch, List.length_append, List.length_singleton, hc]
      simp only [hset]
      cases s1 with
      | nil =>
        have : (NUL == '=') = false := by decide
        simp [charAt, this]
      | cons a s2 =>
        have hs2 : ∀ y ∈ s2, y ≠ NUL := fun y hy => hs1 y (by simp [hy])
        have h3 := cstr_append s2 (NUL :: t) hs2 (Or.inr ⟨t, rfl⟩)
        by_cases ha : a = '=' <;> cases firstline <;> simp [charAt, ha, h3]
    · have hch : chomp (s1 ++ [x]) = s1 ++ [x] := by simp [chomp, hx]
      have hx2 : (x == '\n') = false := by simpa using hx
      simp only [pushedLine, hlen, hch, List.length_append, List.length_singleton, hc, hx2]
      cases s1 with
      | nil =>
        have h3 := cstr_append [] t (by simp) ht
        by_cases ha : x = '=' <;> cases firstline <;> simp [charAt, ha] <;> simpa using h3
      | cons a s2 =>
        have hs2 : ∀ y ∈ s2 ++ [x], y ≠ NUL := fun y hy => hs y (by simpa using Or.inr hy)
        have h3 := cstr_append (s2 ++ [x]) t hs2 ht
        have h4 := take_succ_append_cons s2 t x
        by_cases ha : a = '=' <;> cases firstline <;> simp [charAt, ha, h4] <;> simpa using h3

theorem pushedLine_eq (firstline : Bool) (b : List Char) :
    pushedLine firstline b =
      if firstline = true ∧ (chomp (cstr b)).head? = some '=' then
        "return ".toList ++ (chomp (cstr b)).tail
      else chomp (cstr b) := by
  obtain ⟨t, hb, ht⟩ := cstr_split b
  have h := pushedLine_split firstline (cstr b) t (cstr_no_nul b) ht
  rw [← hb] at h
  exact h

theorem pushedLine_first_eq : pushedLine true "=1+1\n".toList = "return 1+1".toList := by
  decide

theorem pushedLine_cont_eq : pushedLine false "=1+1\n\n".toList = "=1+1\n".toList := by
  decide

/-- C10: for every buffer `b` read by `pushline`, with `cstr b` the raw line it
holds: `line` is the raw line with one trailing newline removed when there is
one (and only one is removed); `pushline` succeeds, pops the prompt and pushes
one string `p` on the stack; when `firstline` is true and `line` starts with
`=`, `p` is "return " followed by the rest of `line` after the `=`; in every
other case (a continuation line, also one starting with `=`, or a first line
not starting with `=`) `p` is `line` unchanged. -/
theorem pushline_rewrites_first_line (R : Runtime) (firstline : Bool) (b : List Char)
    (c : Console) :
    ∃ line p,
      (cstr b = line ++ ['\n'] ∨ (cstr b = line ∧ (cstr b).getLast? ≠ some '\n')) ∧
      pushline R firstline (some b) c =
        (true, { c with stack := Value.str p :: c.stack,
                        prompts := c.prompts ++ [firstline] }) ∧
      (firstline = true → ∀ rest, line = '=' :: rest → p = "return ".toList ++ rest) ∧
      (firstline = false ∨ line.head? ≠ some '=' → p = line) := by
  refine ⟨chomp (cstr b), pushedLine firstline b, ?_, ?_, ?_, ?_⟩
  · by_cases h : (cstr b).getLast? = some '\n'
    · left
      obtain ⟨ys, hys⟩ := List.getLast?_eq_some_iff.mp h
      simp [chomp, hys]
    · right
      simp [chomp, h]
  · simp [pushline, get_prompt, push, pop]
  · intro hf rest hrest
    rw [pushedLine_eq]
    simp [hf, hrest]
  · intro h
    rw [pushedLine_eq]
    rcases h with h | h
    · simp [h]
    · simp [h]

/-! ## incomplete -/

theorem cstr_cons (x : Char) (a : List Char) :
    cstr (x :: a) = if x = NUL then [] else x :: cstr a := by
  by_cases h : x = NUL <;> simp [cstr, List.takeWhile_cons, h]

theorem streq_iff (a b : List Char) : streq a b = true ↔ cstr a = cstr b := by
  induction a generalizing b with
  | nil =>
    cases b with
    | nil => simp [streq]
    | cons y b =>
      by_cases hy : y = NUL
      · simp [streq, cstr_cons, hy, cstr]
      · simp [streq, cstr_cons, hy, cstr]
  | cons x a ih =>
    cases b with
    | nil =>
      by_cases hx : x = NUL
      · simp [streq, cstr_cons, hx, cstr]
      · simp [streq, cstr_cons, hx, cstr]
    | cons y b =>
      by_cases hx : x = NUL
      · by_cases hy : y = NUL
        · simp [streq, cstr_cons, hx, hy]
        · subst hx
          simp [streq, cstr_cons, hy]
      · by_cases hy : y = NUL
        · subst hy
          simp [streq, cstr_cons, hx]
        · simp [streq, cstr_cons, hx, hy, ih]

theorem EOFMARK_no_nul : ∀ x ∈ EOFMARK, x ≠ NUL := by decide

theorem mark_test_iff (msg : List Char) :
    (msg.length >= marklen && streq (msg.drop (msg.length - marklen)) EOFMARK) = true ↔
      EndsWithMark msg := by
  simp only [Bool.and_eq_true, decide_eq_true_eq, streq_iff,
    cstr_of_no_nul EOFMARK EOFMARK_no_nul]
  constructor
  · rintro ⟨hlen, h⟩
    have hl : (msg.drop (msg.length - marklen)).length = marklen := by
      simp only [List.length_drop]; omega
    have hp : cstr (msg.drop (msg.length - marklen)) <+: msg.drop (msg.length - marklen) :=
      List.takeWhile_prefix _
    have he := hp.eq_of_length (by rw [h, hl]; rfl)
    refine ⟨msg.take (msg.length - marklen), ?_⟩
    rw [← h, he, List.take_append_drop]
  · rintro ⟨m, rfl⟩
    have : (m ++ EOFMARK).length - marklen = m.length := by
      simp [EOFMARK, marklen]
    refine ⟨by simp [EOFMARK, marklen], ?_⟩
    rw [this, List.drop_left]
    exact cstr_of_no_nul EOFMARK EOFMARK_no_nul

theorem incomplete_of (R : Runtime) (status : Int) (c : Console)
    (h : Incomplete R (status, top c)) : incomplete R status c = (true, pop 1 c) := by
  obtain ⟨h1, msg, h2, h3⟩ := h
  simp only at h1 h2
  have := (mark_test_iff msg).mpr h3
  simp only [incomplete, h1, beq_self_eq_true, if_true, h2]
  rw [if_pos this]

theorem incomplete_of_not (R : Runtime) (status : Int) (c : Console)
    (h : ¬ Incomplete R (status, top c)) : incomplete R status c = (false, c) := by
  unfold incomplete
  by_cases h1 : status = R.LUA_ERRSYNTAX
  · cases h2 : lua_tolstring R (top c) with
    | none => simp [h1]
    | some msg =>
      have h3 : ¬ EndsWithMark msg := fun h3 => h ⟨h1, msg, h2, h3⟩
      have := (mark_test_iff msg).not.mpr h3
      simp only [h1, beq_self_eq_true, if_true]
      rw [if_neg this]
  · have : (status == R.LUA_ERRSYNTAX) = false := by simpa using h1
    simp [this]

/-! ## addreturn, multiline, loadline -/

theorem chomp_subset (s : List Char) : ∀ x ∈ chomp s, x ∈ s := by
  intro x hx
  unfold chomp at hx
  split at hx
  · exact List.mem_of_mem_dropLast hx
  · exact hx

theorem return_no_nul : ∀ x ∈ "return ".toList, x ≠ NUL := by decide

theorem pushedLine_no_nul (firstline : Bool) (b : List Char) :
    ∀ x ∈ pushedLine firstline b, x ≠ NUL := by
  intro x hx
  rw [pushedLine_eq] at hx
  have hc : ∀ y ∈ chomp (cstr b), y ≠ NUL :=
    fun y hy => cstr_no_nul b y (chomp_subset _ y hy)
  split at hx
  · rcases List.mem_append.mp hx with h | h
    · exact return_no_nul x h
    · exact hc x (List.mem_of_mem_tail h)
  · exact hc x hx

theorem returnText_no_nul (l : List Char) (hl : ∀ x ∈ l, x ≠ NUL) :
    ∀ x ∈ returnText l, x ≠ NUL := by
  intro x hx
  simp only [returnText, List.mem_append, List.mem_singleton] at hx
  rcases hx with (h | h) | h
  · exact return_no_nul x h
  · exact hl x h
  · subst h
    decide

theorem addreturn_eq (R : Runtime) (c : Console) (l : List Char) (below : List Value)
    (hl : ∀ x ∈ l, x ≠ NUL) (hc : c.stack = Value.str l :: below) :
    addreturn R c =
      if (R.loadbuffer (returnText l)).1 = R.LUA_OK then
        ((R.loadbuffer (returnText l)).1,
          { c with stack := (R.loadbuffer (returnText l)).2 :: Value.str l :: below,
                   loads := c.loads ++ [returnText l],
                   history := if l = [] then c.history else c.history ++ [l] })
      else
        ((R.loadbuffer (returnText l)).1, { c with loads := c.loads ++ [returnText l] }) := by
  have h1 : lua_tostring R (top c) = some l := by
    simp [lua_tostring, lua_tolstring, top, hc, cstr_of_no_nul l hl]
  have h2 : cstr (returnText l) = returnText l :=
    cstr_of_no_nul _ (returnText_no_nul l hl)
  have h3 : "return ".toList ++ l ++ [';'] = returnText l := rfl
  simp only [addreturn, h1, Option.getD_some, h3, h2, loadbuffer, push, pop, removeSecond]
  by_cases hs : (R.loadbuffer (returnText l)).1 = R.LUA_OK
  · cases l with
    | nil => simp [hs, charAt, saveline, hc]
    | cons a l =>
      have ha : a ≠ NUL := hl a (List.mem_cons_self _ _)
      simp [hs, charAt, saveline, hc, ha]
  · have : ((R.loadbuffer (returnText l)).1 == R.LUA_OK) = false := by simpa using hs
    simp [hs, this, hc]

/-- C1: for every buffer `b` the line source delivers first, with
`L = pushedLine true b` the first line as `pushline` leaves it on the stack, and
the compiler `R.loadbuffer` an arbitrary oracle: if compiling
"return " ++ L ++ ";" succeeds, `loadline` returns `LUA_OK`, the compiled chunk
is the single value on the stack, exactly one line was read (one
`lua_readline` call, with `firstline` true, so no continuation line was
requested, and the rest of the input is untouched), and that text is the only
one compiled. -/
theorem loadline_expression_first (R : Runtime) (b : List Char) (rest : List (List Char))
    (c : Console)
    (h : (R.loadbuffer (returnText (pushedLine true b))).1 = R.LUA_OK) :
    (loadline R (b :: rest) c).1 = R.LUA_OK ∧
    (loadline R (b :: rest) c).2.1.stack = [(R.loadbuffer (returnText (pushedLine true b))).2] ∧
    (loadline R (b :: rest) c).2.1.prompts = c.prompts ++ [true] ∧
    (loadline R (b :: rest) c).2.1.loads = c.loads ++ [returnText (pushedLine true b)] ∧
    (loadline R (b :: rest) c).2.2 = rest := by
  have ha := addreturn_eq R (pushline R true (some b) { c with stack := [] }).2
    (pushedLine true b) [] (pushedLine_no_nul true b)
    (by simp [pushline, get_prompt, push, pop])
  rw [if_pos h] at ha
  simp only [loadline, ha, h, bne_self_eq_false, Bool.false_eq_true, if_false]
  simp [removeBottom, pushline, get_prompt, push, pop]

theorem attempts_cons (l1 l2 : List Char) (ls : List (List Char)) :
    attempts l1 (l2 :: ls) = l1 :: attempts (l1 ++ '\n' :: l2) ls := by
  simp only [attempts, List.length_cons]
  rw [List.range_succ_eq_map]
  simp [joinLines, Function.comp_def]

theorem multiline_eq (R : Runtime) (bs : List (List Char)) (rest : List (List Char)) :
    ∀ (acc : List Char) (c : Console), c.stack = [Value.str acc] →
    (∀ j < bs.length,
      Incomplete R (R.loadbuffer (joinLines acc ((bs.take j).map (pushedLine false))))) →
    ¬ Incomplete R (R.loadbuffer (joinLines acc (bs.map (pushedLine false)))) →
    multiline R (bs ++ rest) c =
      ((R.loadbuffer (joinLines acc (bs.map (pushedLine false)))).1,
        { stack := [(R.loadbuffer (joinLines acc (bs.map (pushedLine false)))).2,
                    Value.str (joinLines acc (bs.map (pushedLine false)))],
          prompts := c.prompts ++ List.replicate bs.length false,
          loads := c.loads ++ attempts acc (bs.map (pushedLine false)),
          history := c.history ++ [cstr (joinLines acc (bs.map (pushedLine false)))] },
        rest) := by
  induction bs with
  | nil =>
    intro acc c hc _ hfin
    have hline : (lua_tolstring R (bottom c)).getD [] = acc := by simp [bottom, hc, lua_tolstring]
    have hi := incomplete_of_not R (R.loadbuffer acc).1 (loadbuffer R acc c).2
      (by simpa [loadbuffer, push, top, joinLines] using hfin)
    rw [multiline.eq_def]
    simp only [hline, List.nil_append]
    have h1 : (loadbuffer R acc c).1 = (R.loadbuffer acc).1 := rfl
    rw [h1, hi]
    simp [loadbuffer, push, saveline, hc, joinLines, attempts]
  | cons b bs ih =>
    intro acc c hc hinc hfin
    have hline : (lua_tolstring R (bottom c)).getD [] = acc := by simp [bottom, hc, lua_tolstring]
    have h0 := hinc 0 (by simp)
    have hi := incomplete_of R (R.loadbuffer acc).1 (loadbuffer R acc c).2
      (by simpa [loadbuffer, push, top, joinLines] using h0)
    rw [List.cons_append, multiline]
    simp only [hline]
    have h1 : (loadbuffer R acc c).1 = (R.loadbuffer acc).1 := rfl
    rw [h1, hi]
    simp only [if_true]
    have hstep := ih (acc ++ '\n' :: pushedLine false b)
      (concat3 (insertSecond (push (Value.str ['\n'])
        (pushline R false (some b) (pop 1 (loadbuffer R acc c).2)).2)))
      (by simp [concat3, insertSecond, push, pushline, get_prompt, pop, loadbuffer, hc])
      (fun j hj => by
        have := hinc (j + 1) (by simpa using hj)
        simpa [joinLines] using this)
      (by simpa [joinLines] using hfin)
    rw [hstep]
    have hj : joinLines acc (List.map (pushedLine false) (b :: bs)) =
        joinLines (acc ++ '\n' :: pushedLine false b) (List.map (pushedLine false) bs) := by
      simp [joinLines]
    rw [hj]
    simp [concat3, insertSecond, push, pushline, get_prompt, pop, loadbuffer, hc,
      attempts_cons, List.replicate_succ]

/-- C2: for every first buffer `b` and continuation buffers `bs` (`k` of them,
`k >= 0`), with `l1 = pushedLine true b` and `l2 .. l(k+1)` the lines as
`pushline` pushes them: if the expression-form compile of `l1` fails, the
statement compile of `l1 .. lj` joined by single newlines is reported incomplete
for every `j <= k`, and the compile of all `k+1` lines joined is not, then
`loadline` requests exactly `k` continuation lines (after the first read every
`lua_readline` call has `firstline` false, and there are `k` of them), leaves
the rest of the input unread, compiles last exactly
`l1 ++ "\n" ++ ... ++ "\n" ++ l(k+1)`, and returns that compile's status with
that compile's value as the single value on the stack. -/
theorem loadline_continuation_lines (R : Runtime) (b : List Char) (bs rest : List (List Char))
    (c : Console)
    (hexpr : (R.loadbuffer (returnText (pushedLine true b))).1 ≠ R.LUA_OK)
    (hinc : ∀ j < bs.length, Incomplete R (R.loadbuffer
      (joinLines (pushedLine true b) ((bs.take j).map (pushedLine false)))))
    (hfin : ¬ Incomplete R (R.loadbuffer
      (joinLines (pushedLine true b) (bs.map (pushedLine false))))) :
    (loadline R (b :: (bs ++ rest)) c).1 =
      (R.loadbuffer (joinLines (pushedLine true b) (bs.map (pushedLine false)))).1 ∧
    (loadline R (b :: (bs ++ rest)) c).2.1.stack =
      [(R.loadbuffer (joinLines (pushedLine true b) (bs.map (pushedLine false)))).2] ∧
    (loadline R (b :: (bs ++ rest)) c).2.1.prompts =
      c.prompts ++ true :: List.replicate bs.length false ∧
    (loadline R (b :: (bs ++ rest)) c).2.1.loads =
      c.loads ++ returnText (pushedLine true b) ::
        attempts (pushedLine true b) (bs.map (pushedLine false)) ∧
    (loadline R (b :: (bs ++ rest)) c).2.1.loads.getLast? =
      some (joinLines (pushedLine true b) (bs.map (pushedLine false))) ∧
    (loadline R (b :: (bs ++ rest)) c).2.2 = rest := by
  have ha := addreturn_eq R (pushline R true (some b) { c with stack := [] }).2
    (pushedLine true b) [] (pushedLine_no_nul true b)
    (by simp [pushline, get_prompt, push, pop])
  rw [if_neg hexpr] at ha
  have hm := multiline_eq R bs rest (pushedLine true b)
    (addreturn R (pushline R true (some b) { c with stack := [] }).2).2
    (by rw [ha]; simp [pushline, get_prompt, push, pop]) hinc hfin
  have hne : ((R.loadbuffer (returnText (pushedLine true b))).1 != R.LUA_OK) = true := by
    simpa using hexpr
  have hlast : (attempts (pushedLine true b) (bs.map (pushedLine false))).getLast? =
      some (joinLines (pushedLine true b) (bs.map (pushedLine false))) := by
    have : List.take bs.length (List.map (pushedLine false) bs) =
        List.map (pushedLine false) bs := List.take_of_length_le (by simp)
    simp [attempts, List.range_succ, this]
  simp only [loadline, hm]
  rw [ha] at *
  simp only [hne, if_true]
  refine ⟨trivial, by simp [removeBottom], ?_, ?_, ?_, trivial⟩
  · simp [removeBottom, pushline, get_prompt, push, pop]
  · simp [removeBottom, pushline, get_prompt, push, pop]
  · simp only [removeBottom, pushline, get_prompt, push, pop]
    rw [List.getLast?_append, hlast]
    simp

theorem loadline_sample_expression :
    loadline sampleRuntime ["1+2".toList, "x".toList] emptyConsole =
      (0, { stack := [Value.func 1], prompts := [true],
            loads := ["return 1+2;".toList], history := ["1+2".toList] },
        ["x".toList]) := by
  decide

theorem loadline_sample_loop :
    loadline sampleRuntime
        ["for i=1,3 do".toList, "print(i)".toList, "end".toList] emptyConsole =
      (0, { stack := [Value.func 2], prompts := [true, false, false],
            loads := ["return for i=1,3 do;".toList, "for i=1,3 do".toList,
              "for i=1,3 do\nprint(i)".toList, "for i=1,3 do\nprint(i)\nend".toList],
            history := ["for i=1,3 do\nprint(i)\nend".toList] },
        []) := by
  decide

/-- Witness of C1: the line `1+2` with the sample compiler. -/
theorem loadline_expression_first_witness :
    (loadline sampleRuntime ["1+2".toList, "x".toList] emptyConsole).1 = 0 ∧
    (loadline sampleRuntime ["1+2".toList, "x".toList] emptyConsole).2.1.stack
      = [Value.func 1] ∧
    (loadline sampleRuntime ["1+2".toList, "x".toList] emptyConsole).2.1.prompts = [true] ∧
    (loadline sampleRuntime ["1+2".toList, "x".toList] emptyConsole).2.1.loads
      = ["return 1+2;".toList] ∧
    (loadline sampleRuntime ["1+2".toList, "x".toList] emptyConsole).2.2 = ["x".toList] :=
  loadline_expression_first sampleRuntime "1+2".toList ["x".toList] emptyConsole (by decide)

/-- Witness of C2: the three-line loop, two continuation lines. -/
theorem loadline_continuation_lines_witness :
    (loadline sampleRuntime
      ["for i=1,3 do".toList, "print(i)".toList, "end".toList] emptyConsole).1 = 0 ∧
    (loadline sampleRuntime
      ["for i=1,3 do".toList, "print(i)".toList, "end".toList] emptyConsole).2.1.prompts
        = [true, false, false] ∧
    (loadline sampleRuntime
      ["for i=1,3 do".toList, "print(i)".toList, "end".toList] emptyConsole).2.1.loads.getLast?
        = some "for i=1,3 do\nprint(i)\nend".toList := by
  have h := loadline_continuation_lines sampleRuntime "for i=1,3 do".toList
    ["print(i)".toList, "end".toList] [] emptyConsole (by decide)
    (by
      intro j hj
      have hj2 : j < 2 := hj
      interval_cases j
      · exact ⟨by decide, "stdin:1: 'end' expected near <eof>".toList, by decide,
          "stdin:1: 'end' expected near ".toList, by decide⟩
      · exact ⟨by decide, "stdin:2: 'end' expected near <eof>".toList, by decide,
          "stdin:2: 'end' expected near ".toList, by decide⟩)
    (by
      rintro ⟨h1, _⟩
      revert h1
      decide)
  exact ⟨h.1, h.2.2.1, h.2.2.2.2.1⟩

/-! ## The common prefix of the match list -/

theorem lcp_prefix_iff (q a b : List Char) : q <+: lcp a b ↔ q <+: a ∧ q <+: b := by
  induction q generalizing a b with
  | nil => simp
  | cons z q ih =>
    cases a with
    | nil => simp [lcp]
    | cons x a =>
      cases b with
      | nil => simp [lcp]
      | cons y b =>
        by_cases hxy : x = y
        · subst hxy
          simp only [lcp, if_true, List.cons_prefix_cons, ih]
          tauto
        · simp only [lcp, hxy, if_false, List.cons_prefix_cons]
          constructor
          · intro h
            simp at h
          · rintro ⟨⟨h1, _⟩, ⟨h2, _⟩⟩
            exact absurd (h1.symm.trans h2) hxy

theorem lcp_prefix_left (a b : List Char) : lcp a b <+: a :=
  ((lcp_prefix_iff (lcp a b) a b).mp (List.prefix_refl _)).1

theorem matchRun_eq (a t : List Char) (m : Nat) :
    matchRun a t m = min m (lcp a t).length := by
  induction a generalizing t m with
  | nil => cases t <;> cases m <;> simp [matchRun, lcp]
  | cons x a ih =>
    cases t with
    | nil => cases m <;> simp [matchRun, lcp]
    | cons y t =>
      cases m with
      | zero => simp [matchRun]
      | succ m =>
        by_cases hxy : x = y
        · simp only [matchRun, lcp, hxy, ih, beq_self_eq_true, if_true, List.length_cons]
          omega
        · simp [matchRun, lcp, hxy]

theorem prefix_le_iff (q a : List Char) (h : List Char) (hq : q <+: h) (ha : a <+: h) :
    q.length ≤ a.length ↔ q <+: a :=
  ⟨fun hl => List.prefix_of_prefix_length_le hq ha hl, fun hp => hp.length_le⟩

theorem addAll_snoc (cs : List Cand) (c : Cand) (ml : dmlist) :
    addAll (cs ++ [c]) ml = lua_rl_dmadd (addAll cs ml) c.p c.pn (some c.s) c.suf := by
  simp [addAll, List.foldl_append]

theorem addAll_items (cs : List Cand) :
    (addAll cs dminit).items = cs.map (fun c => some c.text) ∧ (addAll cs dminit).first = none := by
  induction cs using List.reverseRecOn with
  | nil => simp [addAll, dminit]
  | append_singleton cs c ih =>
    rw [addAll_snoc]
    simp [lua_rl_dmadd, ih.1, ih.2, Cand.text]

theorem addAll_matchlen (cs : List Cand) (c0 : Cand) :
    (addAll (c0 :: cs) dminit).matchlen ≤ c0.text.length ∧
    ∀ q : List Char, (∀ c ∈ c0 :: cs, q <+: c.text) ↔
      (q <+: c0.text ∧ q.length ≤ (addAll (c0 :: cs) dminit).matchlen) := by
  induction cs using List.reverseRecOn with
  | nil =>
    have h : (addAll [c0] dminit).matchlen = c0.text.length := by
      simp [addAll, lua_rl_dmadd, dminit, dmlist.idx, Cand.text]
    rw [h]
    refine ⟨le_refl _, fun q => ?_⟩
    simp only [List.mem_singleton, forall_eq]
    exact ⟨fun hq => ⟨hq, hq.length_le⟩, fun hq => hq.1⟩
  | append_singleton cs c ih =>
    have hitems := (addAll_items (c0 :: cs)).1
    have hm : (addAll (c0 :: (cs ++ [c])) dminit).matchlen =
        min (addAll (c0 :: cs) dminit).matchlen (lcp c0.text c.text).length := by
      rw [← List.cons_append, addAll_snoc]
      simp [lua_rl_dmadd, dmlist.idx, dmlist.list1, hitems, matchRun_eq, Cand.text]
    rw [hm]
    refine ⟨le_trans (min_le_left _ _) ih.1, fun q => ?_⟩
    have hstep : (∀ x ∈ c0 :: (cs ++ [c]), q <+: x.text) ↔
        ((∀ x ∈ c0 :: cs, q <+: x.text) ∧ q <+: c.text) := by
      simp only [List.mem_cons, List.mem_append, List.mem_singleton, List.not_mem_nil,
        or_false]
      constructor
      · intro h
        exact ⟨fun x hx => h x (by tauto), h c (by tauto)⟩
      · rintro ⟨h1, h2⟩ x hx
        rcases hx with hx | hx | hx
        · exact h1 x (Or.inl hx)
        · exact h1 x (Or.inr hx)
        · exact hx ▸ h2
    rw [hstep, ih.2 q]
    constructor
    · rintro ⟨⟨h1, h2⟩, h3⟩
      refine ⟨h1, le_min h2 ?_⟩
      exact ((lcp_prefix_iff q _ _).mpr ⟨h1, h3⟩).length_le
    · rintro ⟨h1, h2⟩
      refine ⟨⟨h1, le_trans h2 (min_le_left _ _)⟩, ?_⟩
      have h4 := (prefix_le_iff q (lcp c0.text c.text) c0.text h1 (lcp_prefix_left _ _)).mp
        (le_trans h2 (min_le_right _ _))
      exact ((lcp_prefix_iff q _ _).mp h4).2

theorem builtWith_init (P : Cand → Prop) : BuiltWith P dminit :=
  ⟨[], by simp, rfl⟩

theorem builtWith_dmadd (P : Cand → Prop) (ml : dmlist) (p : List Char) (pn : Nat)
    (s : List Char) (suf : Char) (h : BuiltWith P ml) (hc : P ⟨p, pn, s, suf⟩) :
    BuiltWith P (lua_rl_dmadd ml p pn (some s) suf) := by
  obtain ⟨cs, hcs, rfl⟩ := h
  refine ⟨cs ++ [⟨p, pn, s, suf⟩], ?_, (addAll_snoc cs ⟨p, pn, s, suf⟩ dminit).symm⟩
  intro c hc2
  rcases List.mem_append.mp hc2 with h1 | h1
  · exact hcs c h1
  · rw [List.mem_singleton.mp h1]
    exact hc

theorem builtWith_mono (P Q : Cand → Prop) (ml : dmlist) (hpq : ∀ c, P c → Q c)
    (h : BuiltWith P ml) : BuiltWith Q ml := by
  obtain ⟨cs, hcs, rfl⟩ := h
  exact ⟨cs, fun c hc => hpq c (hcs c hc), rfl⟩

theorem builtWith_foldl {α : Type} (P : Cand → Prop) (f : dmlist → α → dmlist)
    (hf : ∀ ml a, BuiltWith P ml → BuiltWith P (f ml a)) (l : List α) (ml : dmlist)
    (h : BuiltWith P ml) : BuiltWith P (l.foldl f ml) := by
  induction l generalizing ml with
  | nil => exact h
  | cons a l ih => exact ih _ (hf ml a h)

theorem builtWith_addKeywords (P : Cand → Prop) (text : List Char) (n : Nat) (ml : dmlist)
    (hP : ∀ c, KeywordCand text n c → P c) (h : BuiltWith P ml) :
    BuiltWith P (addKeywords text n ml) := by
  have key : ∀ (l : List (List Char)) (ml : dmlist), (∀ s ∈ l, s ∈ lua_rl_keywords) →
      BuiltWith P ml →
      BuiltWith P (l.foldl (fun ml s =>
        if strneq s text n then lua_rl_dmadd ml [] 0 (some s) ' ' else ml) ml) := by
    intro l
    induction l with
    | nil => intro ml _ h; exact h
    | cons s l ih =>
      intro ml hl h
      refine ih _ (fun x hx => hl x (List.mem_cons_of_mem _ hx)) ?_
      by_cases hs : strneq s text n = true
      · simp only [hs, if_true]
        exact builtWith_dmadd P ml [] 0 s ' ' h
          (hP _ ⟨rfl, rfl, rfl, hl s (List.mem_cons_self _ _), hs⟩)
      · simp only [hs, Bool.false_eq_true, if_false]
        exact h
  exact key lua_rl_keywords ml (fun s hs => hs) h

theorem suffixOf_ne_nul (st : LuaState) (v : Value) : suffixOf st v ≠ NUL := by
  cases v <;> simp only [suffixOf] <;> try decide
  split <;> decide

theorem builtWith_addEntry (P : Cand → Prop) (st : LuaState) (text : List Char) (dot n : Nat)
    (hP : ∀ c, EntryCand text dot c → P c) (ml : dmlist) (e : Value × Value)
    (h : BuiltWith P ml) : BuiltWith P (addEntry st text dot n ml e) := by
  unfold addEntry
  split
  · split
    · exact builtWith_dmadd P ml text dot _ _ h (hP _ ⟨rfl, rfl, suffixOf_ne_nul st e.2⟩)
    · exact h
  · exact h

theorem builtWith_enumLoop (P : Cand → Prop) (st : LuaState) (text : List Char) (dot n : Nat)
    (hP : ∀ c, EntryCand text dot c → P c) (k : Nat) :
    ∀ (loop : Nat) (node : Value) (ml : dmlist) (log : List (Value × Bool)),
      BuiltWith P ml → BuiltWith P (enumLoop st text dot n k loop node ml log).1 := by
  induction k with
  | zero => intro loop node ml log h; exact h
  | succ k ih =>
    intro loop node ml log h
    have hml : BuiltWith P
        (match node with
          | .table t => if enumerates st loop node then addEntries st text dot n ml t else ml
          | _ => ml) := by
      split
      · split
        · exact builtWith_foldl P _ (fun ml e => builtWith_addEntry P st text dot n hP ml e) _ _ h
        · exact h
      · exact h
    simp only [enumLoop]
    split
    · split
      · exact ih _ _ _ _ hml
      · exact hml
    · exact hml

theorem complete_some (st : LuaState) (text : List Char) (start stop : Nat)
    (l : List (Option (List Char)))
    (h : (lua_rl_complete st text start stop).result = some l) :
    ∃ node dot c0 cs,
      (pathLoop st text (stop - start) 0 0 st.globals []).1 = some (node, dot) ∧
      (∀ c ∈ c0 :: cs, CompleteCand text (stop - start) dot c) ∧
      addAll (c0 :: cs) dminit =
        (enumLoop st text dot (stop - start) 20 0 node
          (if dot == 0 then addKeywords text (stop - start) dminit else dminit) []).1 ∧
      l = some (c0.text.take (addAll (c0 :: cs) dminit).matchlen) ::
        ((c0 :: cs).map (fun c => some c.text) ++ [none]) := by
  dsimp only [lua_rl_complete] at h
  split at h
  · simp at h
  · generalize hr : pathLoop st text (stop - start) 0 0 st.globals [] = r at h
    rcases r with ⟨_ | ⟨node, dot⟩, lg⟩
    · simp at h
    · dsimp only at h
      have h0 : BuiltWith (CompleteCand text (stop - start) dot)
          (if dot == 0 then addKeywords text (stop - start) dminit else dminit) := by
        split
        · rename_i hd
          have hd0 : dot = 0 := by simpa using hd
          exact builtWith_addKeywords _ text _ dminit (fun c hc => Or.inl ⟨hd0, hc⟩)
            (builtWith_init _)
        · exact builtWith_init _
      have h1 := builtWith_enumLoop (CompleteCand text (stop - start) dot) st text dot
        (stop - start) (fun c hc => Or.inr hc) 20 0 node _ [] h0
      obtain ⟨cs, hcs, he⟩ := h1
      rw [he] at h
      have hitems := addAll_items cs
      cases cs with
      | nil => simp [dmlist.idx, hitems.1] at h
      | cons c0 cs =>
        refine ⟨node, dot, c0, cs, rfl, hcs, he.symm, ?_⟩
        have hne : ((addAll (c0 :: cs) dminit).idx == 0) = false := by
          simp [dmlist.idx, hitems.1]
        simp only [hne, Bool.false_eq_true, if_false, Option.some.injEq] at h
        rw [← h]
        simp [lua_rl_dmadd, dmlist.list1, hitems.1]

/-- C3: for every non-empty sequence `c0 :: cs` of candidates added with
`lua_rl_dmadd` to a freshly initialised list, the entries are the candidate
texts (prefix ++ name ++ suffix character) in order, and `matchlen` is the
length of their longest common prefix: the first `matchlen` characters of the
first text are a prefix of every text, and every common prefix of all texts is
at most `matchlen` long; with a single candidate `matchlen` is its length.
Hence, whenever `lua_rl_complete` returns a list, the common prefix in
`list[0]` is a prefix of every candidate, no common prefix is longer, and with
a single candidate it equals that candidate. -/
theorem dmadd_matchlen_common :
    (∀ (c0 : Cand) (cs : List Cand),
      (addAll (c0 :: cs) dminit).items = (c0 :: cs).map (fun c => some c.text) ∧
      (∀ c ∈ c0 :: cs, c0.text.take (addAll (c0 :: cs) dminit).matchlen <+: c.text) ∧
      (∀ q : List Char, (∀ c ∈ c0 :: cs, q <+: c.text) →
        q.length ≤ (addAll (c0 :: cs) dminit).matchlen) ∧
      (c0.text.take (addAll (c0 :: cs) dminit).matchlen).length
        = (addAll (c0 :: cs) dminit).matchlen ∧
      (cs = [] → (addAll (c0 :: cs) dminit).matchlen = c0.text.length)) ∧
    (∀ (st : LuaState) (text : List Char) (start stop : Nat) (l : List (Option (List Char))),
      (lua_rl_complete st text start stop).result = some l →
      ∃ (common : List Char) (texts : List (List Char)),
        texts ≠ [] ∧ l = some common :: (texts.map some ++ [none]) ∧
        (∀ t ∈ texts, common <+: t) ∧
        (∀ q : List Char, (∀ t ∈ texts, q <+: t) → q.length ≤ common.length) ∧
        (∀ t, texts = [t] → common = t)) := by
  have part1 : ∀ (c0 : Cand) (cs : List Cand),
      (addAll (c0 :: cs) dminit).items = (c0 :: cs).map (fun c => some c.text) ∧
      (∀ c ∈ c0 :: cs, c0.text.take (addAll (c0 :: cs) dminit).matchlen <+: c.text) ∧
      (∀ q : List Char, (∀ c ∈ c0 :: cs, q <+: c.text) →
        q.length ≤ (addAll (c0 :: cs) dminit).matchlen) ∧
      (c0.text.take (addAll (c0 :: cs) dminit).matchlen).length
        = (addAll (c0 :: cs) dminit).matchlen ∧
      (cs = [] → (addAll (c0 :: cs) dminit).matchlen = c0.text.length) := by
    intro c0 cs
    obtain ⟨hle, hq⟩ := addAll_matchlen cs c0
    have hlen : (c0.text.take (addAll (c0 :: cs) dminit).matchlen).length
        = (addAll (c0 :: cs) dminit).matchlen := by
      rw [List.length_take]
      exact min_eq_left hle
    refine ⟨(addAll_items (c0 :: cs)).1, ?_, fun q h => ((hq q).mp h).2, hlen, ?_⟩
    · exact (hq _).mpr ⟨List.take_prefix _ _, le_of_eq hlen⟩
    · rintro rfl
      simp [addAll, lua_rl_dmadd, dminit, dmlist.idx, Cand.text]
  refine ⟨part1, ?_⟩
  intro st text start stop l h
  obtain ⟨node, dot, c0, cs, _, _, _, hl⟩ := complete_some st text start stop l h
  obtain ⟨_, h2, h3, h4, h5⟩ := part1 c0 cs
  refine ⟨c0.text.take (addAll (c0 :: cs) dminit).matchlen, (c0 :: cs).map Cand.text,
    by simp, ?_, ?_, ?_, ?_⟩
  · rw [hl]
    simp [Function.comp_def]
  · intro t ht
    obtain ⟨c, hc, rfl⟩ := List.mem_map.mp ht
    exact h2 c hc
  · intro q hq
    rw [h4]
    exact h3 q (fun c hc => hq _ (List.mem_map_of_mem _ hc))
  · intro t ht
    have hcs : cs = [] := by
      simpa using congrArg List.length ht
    subst hcs
    have ht0 : c0.text = t := by simpa using ht
    rw [h5 rfl, List.take_length, ht0]

/-! ## Keywords -/

theorem strneq_of_starts (n : Nat) : ∀ (text k : List Char), text <+: k →
    n ≤ text.length → (∀ x ∈ k, x ≠ NUL) → strneq k text n = true := by
  induction n with
  | zero => intro text k _ _ _; cases k <;> cases text <;> rfl
  | succ n ih =>
    intro text k hp hn hk
    cases text with
    | nil => simp at hn
    | cons x text =>
      cases k with
      | nil => simp at hp
      | cons y k =>
        obtain ⟨hxy, hp2⟩ := List.cons_prefix_cons.mp hp
        subst hxy
        have hx : x ≠ NUL := hk x (List.mem_cons_self _ _)
        have := ih text k hp2 (by simpa using hn) (fun z hz => hk z (List.mem_cons_of_mem _ hz))
        simp [strneq, hx, this]

theorem pathLoop_no_sep (st : LuaState) (text : List Char) (k : Nat) :
    ∀ (i dot : Nat) (node : Value) (log : List (List Value)),
      (∀ j, i ≤ j → j < i + k → isSep (charAt text j) = false) →
      pathLoop st text k i dot node log = (some (node, dot), log) := by
  induction k with
  | zero => intro i dot node log _; rfl
  | succ k ih =>
    intro i dot node log h
    have hi := h i (le_refl _) (by omega)
    simp only [pathLoop, hi, Bool.false_eq_true, if_false]
    exact ih (i + 1) dot node log (fun j h1 h2 => h j (by omega) (by omega))

theorem dmadd_items_mono (ml : dmlist) (p : List Char) (pn : Nat) (s : Option (List Char))
    (suf : Char) (x : Option (List Char)) (hx : x ∈ ml.items) :
    x ∈ (lua_rl_dmadd ml p pn s suf).items := by
  cases s <;> simp [lua_rl_dmadd, hx]

theorem foldl_items_mono {α : Type} (f : dmlist → α → dmlist)
    (hf : ∀ ml a x, x ∈ ml.items → x ∈ (f ml a).items) (l : List α) (ml : dmlist)
    (x : Option (List Char)) (hx : x ∈ ml.items) : x ∈ (l.foldl f ml).items := by
  induction l generalizing ml with
  | nil => exact hx
  | cons a l ih => exact ih _ (hf ml a x hx)

theorem addEntry_items_mono (st : LuaState) (text : List Char) (dot n : Nat) (ml : dmlist)
    (e : Value × Value) (x : Option (List Char)) (hx : x ∈ ml.items) :
    x ∈ (addEntry st text dot n ml e).items := by
  unfold addEntry
  split
  · split
    · exact dmadd_items_mono _ _ _ _ _ _ hx
    · exact hx
  · exact hx

theorem enumLoop_items_mono (st : LuaState) (text : List Char) (dot n : Nat) (k : Nat) :
    ∀ (loop : Nat) (node : Value) (ml : dmlist) (log : List (Value × Bool))
      (x : Option (List Char)), x ∈ ml.items →
      x ∈ (enumLoop st text dot n k loop node ml log).1.items := by
  induction k with
  | zero => intro loop node ml log x hx; exact hx
  | succ k ih =>
    intro loop node ml log x hx
    have hml : x ∈
        (match node with
          | .table t => if enumerates st loop node then addEntries st text dot n ml t else ml
          | _ => ml).items := by
      split
      · split
        · exact foldl_items_mono _ (addEntry_items_mono st text dot n) _ _ _ hx
        · exact hx
      · exact hx
    simp only [enumLoop]
    split
    · split
      · exact ih _ _ _ _ _ hml
      · exact hml
    · exact hml

theorem addKeywords_mem (text : List Char) (n : Nat) (ml : dmlist) (k : List Char)
    (hk : k ∈ lua_rl_keywords) (hs : strneq k text n = true) :
    some (k ++ [' ']) ∈ (addKeywords text n ml).items := by
  have hno : ∀ s ∈ lua_rl_keywords, cstr s = s := by decide
  have key : ∀ (l : List (List Char)) (ml : dmlist), k ∈ l →
      some (k ++ [' ']) ∈ (l.foldl (fun ml s =>
        if strneq s text n then lua_rl_dmadd ml [] 0 (some s) ' ' else ml) ml).items := by
    intro l
    induction l with
    | nil => intro ml h; simp at h
    | cons s l ih =>
      intro ml h
      rcases List.mem_cons.mp h with h1 | h1
      · subst h1
        refine foldl_items_mono _ ?_ l _ _ ?_
        · intro ml a x hx
          split
          · exact dmadd_items_mono _ _ _ _ _ _ hx
          · exact hx
        · have hnul : ((' ' : Char) != NUL) = true := by decide
          simp [hs, lua_rl_dmadd, hno k hk, hnul]
      · exact ih _ h1
  exact key lua_rl_keywords ml hk

theorem keyword_guard (text k : List Char) (hk : k ∈ lua_rl_keywords) (hp : text <+: k) :
    (!(charAt text 0 == NUL || isalpha (charAt text 0) || charAt text 0 == '_')) = false := by
  have hall : ∀ s ∈ lua_rl_keywords, isalpha (charAt s 0) = true := by decide
  cases text with
  | nil => simp [charAt]
  | cons x text =>
    cases k with
    | nil => simp at hp
    | cons y k =>
      obtain ⟨hxy, _⟩ := List.cons_prefix_cons.mp hp
      subst hxy
      have := hall _ hk
      simp only [charAt, List.getD_cons_zero] at this ⊢
      simp [this]

theorem keyword_no_nul : ∀ s ∈ lua_rl_keywords, ∀ x ∈ s, x ≠ NUL := by decide

theorem complete_result (st : LuaState) (text : List Char) (start stop : Nat) (node : Value)
    (dot : Nat) (lg : List (List Value))
    (hg : (!(charAt text 0 == NUL || isalpha (charAt text 0) || charAt text 0 == '_')) = false)
    (hpath : pathLoop st text (stop - start) 0 0 st.globals [] = (some (node, dot), lg))
    (hidx : (enumLoop st text dot (stop - start) 20 0 node
      (if dot == 0 then addKeywords text (stop - start) dminit else dminit) []).1.items ≠ []) :
    (lua_rl_complete st text start stop).result =
      some (some ((enumLoop st text dot (stop - start) 20 0 node
          (if dot == 0 then addKeywords text (stop - start) dminit else dminit) []).1.list1.take
            (enumLoop st text dot (stop - start) 20 0 node
          (if dot == 0 then addKeywords text (stop - start) dminit else dminit) []).1.matchlen) ::
        ((enumLoop st text dot (stop - start) 20 0 node
          (if dot == 0 then addKeywords text (stop - start) dminit else dminit) []).1.items
            ++ [none])) := by
  have hidx2 : ((enumLoop st text dot (stop - start) 20 0 node
      (if dot == 0 then addKeywords text (stop - start) dminit else dminit) []).1.idx == 0)
        = false := by
    simpa [dmlist.idx] using hidx
  dsimp only [lua_rl_complete]
  rw [hg, hpath]
  simp only [Bool.false_eq_true, if_false, hidx2]
  rfl

theorem complete_keyword (st : LuaState) (text : List Char) (start stop : Nat) (k : List Char)
    (hn : stop - start ≤ text.length)
    (hsep : ∀ i < stop - start, charAt text i ≠ '.' ∧ charAt text i ≠ ':')
    (hk : k ∈ lua_rl_keywords) (hp : text <+: k) :
    ∃ first items, (lua_rl_complete st text start stop).result = some (first :: items) ∧
      some (k ++ [' ']) ∈ items := by
  have hg := keyword_guard text k hk hp
  have hpath := pathLoop_no_sep st text (stop - start) 0 0 st.globals []
    (fun j _ hj => by
      have := hsep j (by simpa using hj)
      simp [isSep, this.1, this.2])
  have hs := strneq_of_starts (stop - start) text k hp hn (keyword_no_nul k hk)
  have hmem := enumLoop_items_mono st text 0 (stop - start) 20 0 st.globals
    (addKeywords text (stop - start) dminit) [] _
    (addKeywords_mem text (stop - start) dminit k hk hs)
  have hres := complete_result st text start stop st.globals 0 [] hg hpath
    (List.ne_nil_of_mem hmem)
  exact ⟨_, _, hres, List.mem_append_left _ hmem⟩

theorem pathLoop_dot (st : LuaState) (text : List Char) (k : Nat) :
    ∀ (i dot : Nat) (node : Value) (log : List (List Value)) (node2 : Value) (dot2 : Nat),
      (pathLoop st text k i dot node log).1 = some (node2, dot2) →
      (dot2 = dot ∨ (0 < dot2 ∧ isSep (charAt text (dot2 - 1)) = true)) ∧
      ((∃ j, i ≤ j ∧ j < i + k ∧ isSep (charAt text j) = true) →
        0 < dot2 ∧ isSep (charAt text (dot2 - 1)) = true) := by
  induction k with
  | zero =>
    intro i dot node log node2 dot2 h
    simp only [pathLoop, Option.some.injEq, Prod.mk.injEq] at h
    refine ⟨Or.inl h.2.symm, ?_⟩
    rintro ⟨j, h1, h2, _⟩
    omega
  | succ k ih =>
    intro i dot node log node2 dot2 h
    by_cases hi : isSep (charAt text i) = true
    · simp only [pathLoop, hi, if_true] at h
      split at h
      · simp at h
      · obtain ⟨h1, _⟩ := ih _ _ _ _ _ _ h
        have h3 : 0 < dot2 ∧ isSep (charAt text (dot2 - 1)) = true := by
          rcases h1 with h1 | h1
          · subst h1
            exact ⟨by omega, by simpa using hi⟩
          · exact h1
        exact ⟨Or.inr h3, fun _ => h3⟩
    · simp only [pathLoop, hi, Bool.false_eq_true, if_false] at h
      obtain ⟨h1, h2⟩ := ih _ _ _ _ _ _ h
      refine ⟨h1, ?_⟩
      rintro ⟨j, hj1, hj2, hj3⟩
      by_cases hji : j = i
      · subst hji
        exact absurd hj3 hi
      · exact h2 ⟨j, by omega, by omega, hj3⟩

theorem charAt_mem_take (text : List Char) (j : Nat) (h : charAt text j ≠ NUL) :
    charAt text j ∈ text.take (j + 1) := by
  induction text generalizing j with
  | nil => simp [charAt] at h
  | cons a text ih =>
    cases j with
    | zero => simp [charAt]
    | succ j =>
      have := ih j (by simpa [charAt] using h)
      simp only [charAt, List.getD_cons_succ, List.take_succ_cons, List.mem_cons]
      exact Or.inr (by simpa [charAt] using this)

theorem keyword_no_sep : ∀ s ∈ lua_rl_keywords, ∀ x ∈ s ++ [' '], isSep x = false := by
  decide

theorem complete_no_keyword (st : LuaState) (text : List Char) (start stop : Nat)
    (first : Option (List Char)) (items : List (Option (List Char)))
    (hsep : ∃ i < stop - start, charAt text i = '.' ∨ charAt text i = ':')
    (h : (lua_rl_complete st text start stop).result = some (first :: items)) :
    ∀ k ∈ lua_rl_keywords, some (k ++ [' ']) ∉ items := by
  intro k hk hmem
  obtain ⟨node, dot, c0, cs, hpath, hcs, _, hl⟩ := complete_some st text start stop _ h
  obtain ⟨i, hi, hi2⟩ := hsep
  have hd := (pathLoop_dot st text (stop - start) 0 0 st.globals [] node dot hpath).2
    ⟨i, Nat.zero_le _, by simpa using hi, by
      rcases hi2 with h1 | h1 <;> simp [isSep, h1]⟩
  simp only [List.cons.injEq] at hl
  rw [hl.2] at hmem
  simp only [List.mem_append, List.mem_map, List.mem_singleton, Option.some.injEq,
    reduceCtorEq, or_false] at hmem
  obtain ⟨c, hc, hct⟩ := hmem
  have hec : EntryCand text dot c := by
    rcases hcs c hc with ⟨h0, _⟩ | h1
    · omega
    · exact h1
  have hne : charAt text (dot - 1) ≠ NUL := by
    intro h0
    rw [h0] at hd
    exact absurd hd.2 (by decide)
  have hin : charAt text (dot - 1) ∈ c.text := by
    have := charAt_mem_take text (dot - 1) hne
    have hd1 : dot - 1 + 1 = dot := by omega
    rw [hd1] at this
    simp only [Cand.text, hec.1, hec.2.1, List.mem_append]
    exact Or.inl (Or.inl this)
  rw [hct] at hin
  have := keyword_no_sep k hk _ hin
  rw [hd.2] at this
  exact absurd this (by decide)

theorem complete_sample_t :
    (lua_rl_complete sampleState "t".toList 0 1).result =
      some [some "t".toList, some "then ".toList, some "true ".toList,
        some "table.".toList, none] := by
  decide

theorem complete_sample_method :
    lua_rl_complete sampleState "s:l".toList 0 3 =
      { result := some [some "s:l".toList, some "s:len(".toList, some "s:lower(".toList, none],
        lookups := [[Value.table 0]],
        visited := [(Value.str "hi".toList, false), (Value.table 4, true)] } := by
  decide

/-- C4: there are 22 reserved keywords. For every completion text whose span
(its first `stop - start` characters) contains no dot or colon, and every
keyword `k` that starts with that text, `lua_rl_complete` returns a list whose
candidates contain `k` followed by a single space, in every namespace (so
whether or not a global of the same name yields a candidate too); in
particular for the empty text every keyword is a candidate. When the span
contains a dot or a colon, no candidate is a keyword followed by a space. -/
theorem keywords_offered :
    lua_rl_keywords.length = 22 ∧
    (∀ (st : LuaState) (text : List Char) (start stop : Nat) (k : List Char),
      stop - start ≤ text.length →
      (∀ i < stop - start, charAt text i ≠ '.' ∧ charAt text i ≠ ':') →
      k ∈ lua_rl_keywords → text <+: k →
      ∃ first items, (lua_rl_complete st text start stop).result = some (first :: items) ∧
        some (k ++ [' ']) ∈ items) ∧
    (∀ (st : LuaState) (start : Nat) (k : List Char), k ∈ lua_rl_keywords →
      ∃ first items, (lua_rl_complete st [] start start).result = some (first :: items) ∧
        some (k ++ [' ']) ∈ items) ∧
    (∀ (st : LuaState) (text : List Char) (start stop : Nat) (first : Option (List Char))
      (items : List (Option (List Char))),
      (∃ i < stop - start, charAt text i = '.' ∨ charAt text i = ':') →
      (lua_rl_complete st text start stop).result = some (first :: items) →
      ∀ k ∈ lua_rl_keywords, some (k ++ [' ']) ∉ items) := by
  refine ⟨rfl, complete_keyword, ?_, complete_no_keyword⟩
  intro st start k hk
  exact complete_keyword st [] start start k (by simp) (by simp) hk (List.nil_prefix)

/-- Witness of C4: the text `wh` in the sample namespace, where the global
`while` is a function: the keyword candidate is there, next to the global. -/
theorem keywords_offered_witness :
    (∃ first items, (lua_rl_complete sampleState "wh".toList 0 2).result
        = some (first :: items) ∧ some "while ".toList ∈ items) ∧
    (lua_rl_complete sampleState "wh".toList 0 2).result =
      some [some "while".toList, some "while ".toList, some "while(".toList, none] :=
  ⟨keywords_offered.2.1 sampleState "wh".toList 0 2 "while".toList (by decide) (by decide)
    (by decide) (by decide), by decide⟩

/-- Witness of C3: three candidates whose common prefix is one character. -/
theorem dmadd_matchlen_common_witness :
    (addAll [⟨[], 0, "then".toList, ' '⟩, ⟨[], 0, "true".toList, ' '⟩,
      ⟨"t".toList, 0, "table".toList, '.'⟩] dminit).matchlen = 1 ∧
    ∀ c ∈ ([⟨[], 0, "then".toList, ' '⟩, ⟨[], 0, "true".toList, ' '⟩,
        ⟨"t".toList, 0, "table".toList, '.'⟩] : List Cand),
      (Cand.text ⟨[], 0, "then".toList, ' '⟩).take
        (addAll [⟨[], 0, "then".toList, ' '⟩, ⟨[], 0, "true".toList, ' '⟩,
          ⟨"t".toList, 0, "table".toList, '.'⟩] dminit).matchlen <+: c.text :=
  ⟨by decide, (dmadd_matchlen_common.1 ⟨[], 0, "then".toList, ' '⟩
    [⟨[], 0, "true".toList, ' '⟩, ⟨"t".toList, 0, "table".toList, '.'⟩]).2.1⟩

/-! ## The candidates of one table -/

theorem strneq_take (m : Nat) : ∀ (s tl : List Char), m ≤ tl.length →
    (∀ x ∈ s, x ≠ NUL) → (∀ x ∈ tl, x ≠ NUL) →
    strneq s tl m = (tl.take m).isPrefixOf s := by
  induction m with
  | zero => intro s tl _ _ _; cases s <;> cases tl <;> simp [strneq]
  | succ m ih =>
    intro s tl hm hs ht
    cases tl with
    | nil => simp at hm
    | cons y tl =>
      have hy : y ≠ NUL := ht y (List.mem_cons_self _ _)
      cases s with
      | nil => simp [strneq, hy]
      | cons x s =>
        have hx : x ≠ NUL := hs x (List.mem_cons_self _ _)
        have := ih s tl (by simpa using hm) (fun z hz => hs z (List.mem_cons_of_mem _ hz))
          (fun z hz => ht z (List.mem_cons_of_mem _ hz))
        by_cases hxy : x = y
        · subst hxy
          simp [strneq, hx, this]
        · have hyx : ¬ y = x := fun h => hxy h.symm
          have e1 : (x == y) = false := by simpa using hxy
          have e2 : (y == x) = false := by simpa using hyx
          simp only [strneq, List.take_succ_cons, List.isPrefixOf, e1, e2, Bool.false_and]
          simp [hx]

theorem valididentifierRest_eq (s : List Char) (hs : ∀ x ∈ s, x ≠ NUL) :
    valididentifierRest s = s.all (fun d => d.isAlpha || d.isDigit || d == '_') := by
  induction s with
  | nil => rfl
  | cons c s ih =>
    have hc : c ≠ NUL := hs c (List.mem_cons_self _ _)
    have := ih (fun z hz => hs z (List.mem_cons_of_mem _ hz))
    by_cases h : (c.isAlpha || c.isDigit || c == '_') = true
    · simp only [valididentifierRest, isalpha, isdigit, h, List.all_cons, this]
      simp [hc]
    · simp only [Bool.not_eq_true] at h
      simp only [valididentifierRest, isalpha, isdigit, h, List.all_cons]
      simp [hc]

theorem valididentifier_eq (s : List Char) (hs : ∀ x ∈ s, x ≠ NUL) :
    valididentifier s = identifierSpec s := by
  cases s with
  | nil => decide
  | cons c s =>
    have := valididentifierRest_eq s (fun z hz => hs z (List.mem_cons_of_mem _ hz))
    by_cases h : (c.isAlpha || c == '_') = true
    · simp only [valididentifier, charAt, List.getD_cons_zero, isalpha, h, identifierSpec,
        List.drop_succ_cons, List.drop_zero, this]
      simp
    · simp only [Bool.not_eq_true] at h
      simp [valididentifier, charAt, isalpha, h, identifierSpec]

theorem suffixOf_eq (st : LuaState) (v : Value) : suffixOf st v = suffixSpec st v := by
  cases v <;> simp [suffixOf, suffixSpec, lua_type]

theorem head_underscore (s : List Char) :
    (charAt s 0 != '_') = (s.head? != some '_') := by
  cases s with
  | nil => decide
  | cons c s => by_cases h : c = '_' <;> simp [charAt, bne, h]

theorem tail_underscore (text : List Char) (dot : Nat) :
    (charAt text dot == '_') = ((text.drop dot).head? == some '_') := by
  induction text generalizing dot with
  | nil => simp [charAt]; decide
  | cons c text ih =>
    cases dot with
    | zero => simp [charAt]
    | succ dot => simpa [charAt] using ih dot

theorem addEntry_eq (st : LuaState) (text : List Char) (dot : Nat) (ml : dmlist)
    (e : Value × Value) (hnul : ∀ x ∈ text, x ≠ NUL) :
    (addEntry st text dot text.length ml e).items =
      ml.items ++ ((entrySpec st (text.take dot) (text.drop dot) e).map some).toList := by
  unfold addEntry entrySpec
  cases he : e.1 with
  | str key =>
    simp only
    have h1 := strneq_take (text.length - dot) (cstr key) (text.drop dot) (by simp)
      (cstr_no_nul key) (fun x hx => hnul x (List.mem_of_mem_drop hx))
    have h2 := valididentifier_eq (cstr key) (cstr_no_nul key)
    have h3 : List.take (text.length - dot) (List.drop dot text) = List.drop dot text :=
      List.take_of_length_le (by simp)
    rw [h1, h2, h3, head_underscore, tail_underscore]
    split
    · simp [lua_rl_dmadd, cstr_idem, suffixOf_eq, suffixOf_ne_nul,
        (suffixOf_eq st e.2) ▸ suffixOf_ne_nul st e.2]
    · simp
  | _ => simp

/-- C5 (amended): for every table `t` enumerated by `lua_rl_complete`, called as
readline calls it (the span is the whole C string `text`), with
`tail = text[dot..n)`: the candidates added from it are exactly, in the order
of the entries, for each string key, with `s` the key as a C string (its
characters before the first NUL), such that `s` starts with `tail`, `s` is a
valid identifier, and `s` does not start with an underscore or `tail` does, the
string `text[0..dot) ++ s ++ suf`, where `suf` is a dot if the value is a table,
a parenthesis if it is a function, a colon if it is a full userdata that has a
metatable, and a space otherwise; other entries add nothing. -/
theorem table_candidates (st : LuaState) (text : List Char) (dot : Nat) (t : Nat)
    (ml : dmlist) (hnul : ∀ x ∈ text, x ≠ NUL) :
    (addEntries st text dot text.length ml t).items =
      ml.items ++
        (candidatesSpec st (text.take dot) (text.drop dot) (st.tables t).entries).map some := by
  unfold addEntries candidatesSpec
  generalize (st.tables t).entries = es
  induction es generalizing ml with
  | nil => simp
  | cons e es ih =>
    rw [List.foldl_cons, ih, addEntry_eq st text dot ml e hnul]
    cases h : entrySpec st (List.take dot text) (List.drop dot text) e <;>
      simp [List.filterMap_cons, h]

/-- Witness of C5: the text `t` against the sample global table, whose key
`table` is a table. -/
theorem table_candidates_witness :
    (addEntries sampleState "t".toList 0 1 dminit 0).items = [some "table.".toList] :=
  table_candidates sampleState "t".toList 0 0 dminit (by decide)

/-- Counterexample to C5 as stated: the string key `k\0z` of the sample
global table is not a valid identifier, yet its entry adds the candidate `k `
(the key is read as a C string); and the light userdata `null`, which has a
metatable, gets a space, not a colon. -/
theorem table_candidates_counterexample :
    identifierSpec "k\x00z".toList = false ∧
    (addEntry sampleState [] 0 0 dminit
        (Value.str "k\x00z".toList, Value.number 2)).items = [some "k ".toList] ∧
    (lua_rl_complete sampleState "k".toList 0 1).result =
      some [some "k ".toList, some "k ".toList, none] ∧
    (lua_getmetatable sampleState (Value.lightuserdata 0)).isSome = true ∧
    (addEntry sampleState [] 0 0 dminit
        (Value.str "null".toList, Value.lightuserdata 0)).items = [some "null ".toList] := by
  decide

/-! ## Lookup along the metatable chain -/

theorem chainNode_succ_left (st : LuaState) (start : Value) (h : Nat) :
    chainNode st start (h + 1) =
      (lua_rl_getmetaindex st start).bind (fun next => chainNode st next h) := by
  induction h with
  | zero => simp [chainNode]
  | succ h ih =>
    rw [chainNode, ih]
    cases lua_rl_getmetaindex st start with
    | none => rfl
    | some next => simp [chainNode]

theorem firstHolder_zero (st : LuaState) (start : Value) (key : List Char) (h : Nat)
    (v : Value) (hf : tableField st start key ≠ Value.nil) :
    FirstHolder st start key h v ↔ h = 0 ∧ v = tableField st start key := by
  constructor
  · rintro ⟨node, h1, h2, _, h4⟩
    cases h with
    | zero =>
      simp only [chainNode, Option.some.injEq] at h1
      subst h1
      exact ⟨rfl, h2.symm⟩
    | succ h => exact absurd (h4 0 (Nat.succ_pos _) start rfl) hf
  · rintro ⟨rfl, rfl⟩
    exact ⟨start, rfl, rfl, hf, fun h2 hh => absurd hh (Nat.not_lt_zero _)⟩

theorem firstHolder_succ (st : LuaState) (start next : Value) (key : List Char) (h : Nat)
    (v : Value) (hf : tableField st start key = Value.nil)
    (hn : lua_rl_getmetaindex st start = some next) :
    FirstHolder st start key (h + 1) v ↔ FirstHolder st next key h v := by
  have hc : ∀ j, chainNode st start (j + 1) = chainNode st next j := by
    intro j
    rw [chainNode_succ_left, hn]
    rfl
  constructor
  · rintro ⟨node, h1, h2, h3, h4⟩
    refine ⟨node, by rw [← hc]; exact h1, h2, h3, fun h2 hh node2 hn2 => ?_⟩
    exact h4 (h2 + 1) (by omega) node2 (by rw [hc]; exact hn2)
  · rintro ⟨node, h1, h2, h3, h4⟩
    refine ⟨node, by rw [hc]; exact h1, h2, h3, fun h2 hh node2 hn2 => ?_⟩
    cases h2 with
    | zero =>
      simp only [chainNode, Option.some.injEq] at hn2
      subst hn2
      exact hf
    | succ h2 => exact h4 h2 (by omega) node2 (by rw [← hc]; exact hn2)

theorem getfieldFrom_succ (st : LuaState) (key : List Char) (i : Nat) (obj : Value) :
    getfieldFrom st key (i + 1) obj =
      if tableField st obj key != .nil then ⟨some (tableField st obj key), [obj]⟩
      else if 0 < i then
        match lua_rl_getmetaindex st obj with
        | some next =>
          ⟨(getfieldFrom st key i next).result, obj :: (getfieldFrom st key i next).examined⟩
        | none => ⟨none, [obj]⟩
      else ⟨none, [obj]⟩ := by
  rw [getfieldFrom]

theorem getfieldFrom_iff (st : LuaState) (key : List Char) (i : Nat) :
    ∀ (start v : Value), (getfieldFrom st key (i + 1) start).result = some v ↔
      ∃ h ≤ i, FirstHolder st start key h v := by
  induction i with
  | zero =>
    intro start v
    by_cases hf : tableField st start key = Value.nil
    · simp only [getfieldFrom, hf, bne_self_eq_false, Bool.false_eq_true, if_false,
        lt_irrefl, reduceCtorEq, false_iff]
      rintro ⟨h, hh, node, h1, h2, h3, _⟩
      have h0 : h = 0 := by omega
      subst h0
      simp only [chainNode, Option.some.injEq] at h1
      subst h1
      exact h3 (h2.symm.trans hf)
    · have hb : (tableField st start key != Value.nil) = true := by simpa using hf
      simp only [getfieldFrom, hb, if_true, Option.some.injEq]
      constructor
      · intro hv
        exact ⟨0, le_refl _, (firstHolder_zero st start key 0 v hf).mpr ⟨rfl, hv.symm⟩⟩
      · rintro ⟨h, _, hh⟩
        exact ((firstHolder_zero st start key h v hf).mp hh).2.symm
  | succ i ih =>
    intro start v
    by_cases hf : tableField st start key = Value.nil
    · rw [getfieldFrom_succ]
      simp only [hf, bne_self_eq_false, Bool.false_eq_true, if_false,
        Nat.succ_pos, if_true]
      cases hn : lua_rl_getmetaindex st start with
      | none =>
        simp only [reduceCtorEq, false_iff]
        rintro ⟨h, hh, node, h1, h2, h3, _⟩
        cases h with
        | zero =>
          simp only [chainNode, Option.some.injEq] at h1
          subst h1
          exact h3 (h2.symm.trans hf)
        | succ h =>
          rw [chainNode_succ_left, hn] at h1
          simp at h1
      | some next =>
        simp only
        rw [ih next v]
        constructor
        · rintro ⟨h, hh, hfh⟩
          exact ⟨h + 1, by omega, (firstHolder_succ st start next key h v hf hn).mpr hfh⟩
        · rintro ⟨h, hh, hfh⟩
          cases h with
          | zero =>
            obtain ⟨node, h1, h2, h3, _⟩ := hfh
            simp only [chainNode, Option.some.injEq] at h1
            subst h1
            exact absurd (h2.symm.trans hf) h3
          | succ h =>
            exact ⟨h, by omega, (firstHolder_succ st start next key h v hf hn).mp hfh⟩
    · have hb : (tableField st start key != Value.nil) = true := by simpa using hf
      rw [getfieldFrom_succ]
      simp only [hb, if_true, Option.some.injEq]
      constructor
      · intro hv
        exact ⟨0, Nat.zero_le _, (firstHolder_zero st start key 0 v hf).mpr ⟨rfl, hv.symm⟩⟩
      · rintro ⟨h, _, hh⟩
        exact ((firstHolder_zero st start key h v hf).mp hh).2.symm

theorem pathLoop_add (st : LuaState) (text : List Char) (a b : Nat) :
    ∀ (i dot : Nat) (node : Value) (log : List (List Value)),
      pathLoop st text (a + b) i dot node log =
        match pathLoop st text a i dot node log with
        | (some (nd, d), lg) => pathLoop st text b (i + a) d nd lg
        | (none, lg) => (none, lg) := by
  induction a with
  | zero => intro i dot node log; simp [pathLoop]
  | succ a ih =>
    intro i dot node log
    have e : a + 1 + b = (a + b) + 1 := by omega
    rw [e]
    simp only [pathLoop]
    have e2 : i + (a + 1) = i + 1 + a := by omega
    split
    · split
      · rfl
      · rw [ih, e2]
    · rw [ih, e2]

theorem complete_segment_failure (st : LuaState) (text : List Char) (start stop i : Nat)
    (node : Value) (dot : Nat) (lg : List (List Value)) (hi : i < stop - start)
    (hsep : isSep (charAt text i) = true)
    (hpath : pathLoop st text i 0 0 st.globals [] = (some (node, dot), lg))
    (hfail : (lua_rl_getfield st node ((text.drop dot).take (i - dot))).result = none) :
    (lua_rl_complete st text start stop).result = none := by
  have e : stop - start = i + ((stop - start - i - 1) + 1) := by omega
  have hp : (pathLoop st text (stop - start) 0 0 st.globals []).1 = none := by
    rw [e, pathLoop_add, hpath]
    simp only [Nat.zero_add, pathLoop, hsep, if_true, hfail]
  dsimp only [lua_rl_complete]
  split
  · rfl
  · rw [hp]

theorem getfield_none_iff (st : LuaState) (start : Value) (key : List Char) :
    (lua_rl_getfield st start key).result = none ↔
      ∀ h < 20, ∀ node, chainNode st start h = some node →
        tableField st node key = Value.nil := by
  classical
  have hiff := getfieldFrom_iff st key 19 start
  constructor
  · intro hnone
    by_contra hcon
    push_neg at hcon
    have hex : ∃ h, h < 20 ∧ ∃ node, chainNode st start h = some node ∧
        tableField st node key ≠ Value.nil := hcon
    obtain ⟨hlt, node, hn, hne⟩ := Nat.find_spec hex
    have hfirst : FirstHolder st start key (Nat.find hex) (tableField st node key) := by
      refine ⟨node, hn, rfl, hne, fun h2 hh node2 hn2 => ?_⟩
      by_contra hne2
      exact Nat.find_min hex hh ⟨by omega, node2, hn2, hne2⟩
    have := (hiff (tableField st node key)).mpr ⟨Nat.find hex, by omega, hfirst⟩
    rw [lua_rl_getfield] at hnone
    rw [hnone] at this
    simp at this
  · intro hall
    cases hres : (lua_rl_getfield st start key).result with
    | none => rfl
    | some v =>
      obtain ⟨h, hh, node, h1, h2, h3, _⟩ := (hiff v).mp hres
      exact absurd (h2.symm.trans (hall h (by omega) node h1)) h3

/-- C6 (amended): for every starting node and key, `lua_rl_getfield` succeeds
with `v` if and only if some table holding the key (non-nil, by raw lookup)
lies on the metatable `__index` chain at most 19 hops from the starting node
(it is one of the first 20 nodes of the chain), and `v` is the raw value under
the key in the nearest such node; it fails if and only if none of those 20
nodes holds the key. A lookup that fails on a path segment makes
`lua_rl_complete` return NULL. -/
theorem getfield_walks_chain :
    (∀ (st : LuaState) (start : Value) (key : List Char) (v : Value),
      (lua_rl_getfield st start key).result = some v ↔
        ∃ h < 20, ∃ node, chainNode st start h = some node ∧
          tableField st node key = v ∧ v ≠ Value.nil ∧
          ∀ h2 < h, ∀ node2, chainNode st start h2 = some node2 →
            tableField st node2 key = Value.nil) ∧
    (∀ (st : LuaState) (start : Value) (key : List Char),
      (lua_rl_getfield st start key).result = none ↔
        ∀ h < 20, ∀ node, chainNode st start h = some node →
          tableField st node key = Value.nil) ∧
    (∀ (st : LuaState) (text : List Char) (start stop i : Nat) (node : Value) (dot : Nat)
      (lg : List (List Value)), i < stop - start →
      isSep (charAt text i) = true →
      pathLoop st text i 0 0 st.globals [] = (some (node, dot), lg) →
      (lua_rl_getfield st node ((text.drop dot).take (i - dot))).result = none →
      (lua_rl_complete st text start stop).result = none) := by
  refine ⟨?_, getfield_none_iff, complete_segment_failure⟩
  intro st start key v
  rw [lua_rl_getfield, getfieldFrom_iff st key 19 start v]
  constructor
  · rintro ⟨h, hh, hf⟩
    exact ⟨h, by omega, hf⟩
  · rintro ⟨h, hh, hf⟩
    exact ⟨h, by omega, hf⟩

/-- Counterexample to C6 as stated: in the chain of 21 tables the only table
holding `x` is 20 hops from table `0`, and the lookup from table `0` fails;
from table `1`, 19 hops away, it succeeds. -/
theorem getfield_twenty_hops_counterexample :
    chainNode chainState (Value.table 0) 20 = some (Value.table 20) ∧
    tableField chainState (Value.table 20) "x".toList = Value.number 1 ∧
    (lua_rl_getfield chainState (Value.table 0) "x".toList).result = none ∧
    (lua_rl_getfield chainState (Value.table 1) "x".toList).result = some (Value.number 1) := by
  decide

/-- Witness of C6: in the sample namespace `insert` is found in the table
`table` itself, and the path `nope.` fails, so completion returns NULL. -/
theorem getfield_walks_chain_witness :
    (lua_rl_getfield sampleState (Value.table 1) "insert".toList).result
      = some (Value.func 2) ∧
    (lua_rl_complete sampleState "nope.x".toList 0 6).result = none :=
  ⟨(getfield_walks_chain.1 sampleState (Value.table 1) "insert".toList (Value.func 2)).mpr
      ⟨0, by decide, Value.table 1, rfl, by decide, by decide,
        fun h2 hh => absurd hh (Nat.not_lt_zero _)⟩,
    getfield_walks_chain.2.2 sampleState "nope.x".toList 0 6 4 (Value.table 0) 0 []
      (by decide) (by decide) (by decide) (by decide)⟩

/-! ## Bounds of the loops -/

theorem getfieldFrom_examined (st : LuaState) (key : List Char) (i : Nat) :
    ∀ obj : Value, (getfieldFrom st key (i + 1) obj).examined.length ≤ i + 1 := by
  induction i with
  | zero =>
    intro obj
    simp only [getfieldFrom]
    split <;> simp
  | succ i ih =>
    intro obj
    rw [getfieldFrom_succ]
    split
    · simp
    · simp only [Nat.succ_pos, if_true]
      split
      · have := ih ‹Value›
        simp only [List.length_cons]
        omega
      · simp

theorem pathLoop_lookups (st : LuaState) (text : List Char) (k : Nat) :
    ∀ (i dot : Nat) (node : Value) (log : List (List Value)),
      (∀ l ∈ log, l.length ≤ 20) →
      ∀ l ∈ (pathLoop st text k i dot node log).2, l.length ≤ 20 := by
  induction k with
  | zero => intro i dot node log hlog; exact hlog
  | succ k ih =>
    intro i dot node log hlog
    have hnew : ∀ (nd : Value) (ky : List Char),
        ∀ l ∈ log ++ [(lua_rl_getfield st nd ky).examined], l.length ≤ 20 := by
      intro nd ky l hl
      rcases List.mem_append.mp hl with h | h
      · exact hlog l h
      · rw [List.mem_singleton.mp h]
        exact getfieldFrom_examined st ky 19 nd
    simp only [pathLoop]
    split
    · split
      · exact hnew _ _
      · exact ih _ _ _ _ (hnew _ _)
    · exact ih _ _ _ _ hlog

theorem enumLoop_visited (st : LuaState) (text : List Char) (dot n : Nat) (k : Nat) :
    ∀ (loop : Nat) (node : Value) (ml : dmlist) (log : List (Value × Bool)),
      (enumLoop st text dot n k loop node ml log).2.length ≤ log.length + k := by
  induction k with
  | zero => intro loop node ml log; simp [enumLoop]
  | succ k ih =>
    intro loop node ml log
    simp only [enumLoop]
    split
    · split
      · refine le_trans (ih _ _ _ _) ?_
        simp only [List.length_append, List.length_singleton]
        omega
      · simp only [List.length_append, List.length_singleton]
        omega
    · simp only [List.length_append, List.length_singleton]
      omega

theorem enumLoop_bound (st : LuaState) (text : List Char) (dot n : Nat) (k : Nat) :
    ∀ (j loop : Nat) (node : Value) (ml : dmlist) (log : List (Value × Bool)),
      20 ≤ loop + (k + 1) →
      enumLoop st text dot n (k + 1 + j) loop node ml log =
        enumLoop st text dot n (k + 1) loop node ml log := by
  induction k with
  | zero =>
    intro j loop node ml log h
    have e : 0 + 1 + j = j + 1 := by omega
    have hl : ¬ (loop + 1 < 20) := by omega
    rw [e]
    simp only [enumLoop, hl, if_false]
  | succ k ih =>
    intro j loop node ml log h
    have e : k + 1 + 1 + j = (k + 1 + j) + 1 := by omega
    rw [e]
    simp only [enumLoop]
    split
    · split
      · exact ih j (loop + 1) _ _ _ (by omega)
      · rfl
    · rfl

theorem complete_traces (st : LuaState) (text : List Char) (start stop : Nat) :
    ((lua_rl_complete st text start stop).lookups = [] ∨
      (lua_rl_complete st text start stop).lookups =
        (pathLoop st text (stop - start) 0 0 st.globals []).2) ∧
    ((lua_rl_complete st text start stop).visited = [] ∨
      ∃ node dot ml, (lua_rl_complete st text start stop).visited =
        (enumLoop st text dot (stop - start) 20 0 node ml []).2) := by
  dsimp only [lua_rl_complete]
  by_cases hg : (!(charAt text 0 == NUL || isalpha (charAt text 0) || charAt text 0 == '_')) = true
  · rw [if_pos hg]
    exact ⟨Or.inl rfl, Or.inl rfl⟩
  · rw [if_neg hg]
    generalize pathLoop st text (stop - start) 0 0 st.globals [] = r
    rcases r with ⟨_ | ⟨node, dot⟩, lg⟩
    · exact ⟨Or.inr rfl, Or.inl rfl⟩
    · dsimp only
      generalize (if (dot == 0) = true then addKeywords text (stop - start) dminit
        else dminit) = ml0
      split
      · exact ⟨Or.inr rfl, Or.inr ⟨node, dot, ml0, rfl⟩⟩
      · exact ⟨Or.inr rfl, Or.inr ⟨node, dot, ml0, rfl⟩⟩

/-- C7: for every namespace graph (the model is a total function, so
`lua_rl_complete` returns on every graph, cyclic or not): each path-segment
lookup examines at least one and at most 20 nodes, and the candidate
enumeration runs on at most 20 nodes of the `__index` chain; the enumeration
stops by its own counter (a larger bound for the recursion changes nothing). -/
theorem complete_is_bounded (st : LuaState) (text : List Char) (start stop : Nat) :
    (∀ l ∈ (lua_rl_complete st text start stop).lookups, l.length ≤ 20) ∧
    (lua_rl_complete st text start stop).visited.length ≤ 20 ∧
    (∀ (obj : Value) (key : List Char),
      1 ≤ (lua_rl_getfield st obj key).examined.length ∧
      (lua_rl_getfield st obj key).examined.length ≤ 20) ∧
    (∀ (dot j : Nat) (node : Value) (ml : dmlist),
      enumLoop st text dot (stop - start) (20 + j) 0 node ml [] =
        enumLoop st text dot (stop - start) 20 0 node ml []) := by
  have hpath := pathLoop_lookups st text (stop - start) 0 0 st.globals [] (by simp)
  obtain ⟨h1, h2⟩ := complete_traces st text start stop
  refine ⟨?_, ?_, ?_, fun dot j node ml =>
    enumLoop_bound st text dot (stop - start) 19 j 0 node ml [] (by omega)⟩
  · rcases h1 with h1 | h1
    · rw [h1]; simp
    · rw [h1]; exact hpath
  · rcases h2 with h2 | ⟨node, dot, ml, h2⟩
    · rw [h2]; simp
    · rw [h2]
      simpa using enumLoop_visited st text dot (stop - start) 20 0 node ml []
  · intro obj key
    refine ⟨?_, getfieldFrom_examined st key 19 obj⟩
    rw [lua_rl_getfield, getfieldFrom_succ]
    split
    · simp
    · simp only [Nat.succ_pos, if_true]
      split <;> simp

theorem complete_cycle :
    lua_rl_complete cycleState "t.".toList 0 2 =
      { result := some (some "t.".toList ::
          ((List.replicate 10 [some "t.a ".toList, some "t.b ".toList]).flatten ++ [none])),
        lookups := [[Value.table 0]],
        visited := (List.replicate 10 [(Value.table 1, true), (Value.table 3, true)]).flatten }
      := by
  decide

theorem complete_self_reference :
    lua_rl_complete cycleState "self.z.".toList 0 7 =
      { result := none, lookups := [[Value.table 0], [Value.table 5]], visited := [] } ∧
    lua_rl_complete cycleState "self.".toList 0 5 =
      { result := some [some "self.c ".toList, some "self.c ".toList, none],
        lookups := [[Value.table 0]], visited := [(Value.table 5, true)] } ∧
    (lua_rl_getfield cycleState (Value.table 1) "zz".toList).examined.length = 20 := by
  decide

/-! ## The message handler -/

/-- C9 (amended): for every error payload, `msghandler` returns: for a string
payload, or a number converted to a string, the traceback-augmented message
`traceback(base)` with `base` the text of the payload as a C string (up to its
first NUL); for any other payload whose `__tostring` metamethod exists and
yields a string, that string itself, with no traceback; and otherwise
`traceback(base)` with `base` the synthesized text
"(error object is a K value)", `K` the name of the payload's type. -/
theorem msghandler_result (R : Runtime) (E : ErrorLib) (payload : Value) :
    (∀ s, payload = Value.str s → msghandler R E payload = Value.str (E.traceback (cstr s))) ∧
    (∀ n, payload = Value.number n →
      msghandler R E payload = Value.str (E.traceback (cstr (R.fmtnumber n)))) ∧
    (lua_type payload ≠ LuaType.tstring → lua_type payload ≠ LuaType.tnumber →
      (∀ s, E.callmeta payload = some (Value.str s) → msghandler R E payload = Value.str s) ∧
      ((∀ s, E.callmeta payload ≠ some (Value.str s)) →
        msghandler R E payload =
          Value.str (E.traceback ("(error object is a ".toList ++
            cstr (E.typename (lua_type payload)) ++ " value)".toList)))) := by
  have hsyn : cstr ("(error object is a ".toList ++ cstr (E.typename (lua_type payload)) ++
      " value)".toList) = "(error object is a ".toList ++
        cstr (E.typename (lua_type payload)) ++ " value)".toList := by
    apply cstr_of_no_nul
    intro x hx
    simp only [List.mem_append] at hx
    have h1 : ∀ y ∈ "(error object is a ".toList, y ≠ NUL := by decide
    have h2 : ∀ y ∈ " value)".toList, y ≠ NUL := by decide
    rcases hx with (h | h) | h
    · exact h1 x h
    · exact cstr_no_nul _ x h
    · exact h2 x h
  refine ⟨?_, ?_, ?_⟩
  · rintro s rfl
    simp [msghandler, lua_tostring, lua_tolstring]
  · rintro n rfl
    simp [msghandler, lua_tostring, lua_tolstring]
  · intro h1 h2
    have hnone : lua_tostring R payload = none := by
      cases payload <;> simp_all [lua_tostring, lua_tolstring, lua_type]
    constructor
    · intro s hs
      simp [msghandler, hnone, hs]
    · intro hs
      cases hc : E.callmeta payload with
      | none => simp only [msghandler, hnone, hc, hsyn]
      | some v =>
        cases v with
        | str s => exact absurd hc (hs s)
        | _ => simp only [msghandler, hnone, hc, hsyn]

/-- Witness of C9: a table with no `__tostring` gets the synthesized text and
a traceback; a string gets a traceback. -/
theorem msghandler_result_witness :
    msghandler sampleRuntime sampleErrorLib (Value.table 1) =
      Value.str "(error object is a table value)\nstack traceback:".toList ∧
    msghandler sampleRuntime sampleErrorLib (Value.str "oops".toList) =
      Value.str "oops\nstack traceback:".toList :=
  ⟨((msghandler_result sampleRuntime sampleErrorLib (Value.table 1)).2.2
      (by decide) (by decide)).2 (fun s h => by simp [sampleErrorLib] at h),
    (msghandler_result sampleRuntime sampleErrorLib (Value.str "oops".toList)).1 _ rfl⟩

/-- Counterexample to C9 as stated: for the table whose `__tostring` yields
`boom` the handler returns `boom` itself, not the traceback-augmented message;
and for the string `a\0b` the traceback is built from `a`, not from the
payload itself. -/
theorem msghandler_counterexample :
    sampleErrorLib.callmeta (Value.table 0) = some (Value.str "boom".toList) ∧
    msghandler sampleRuntime sampleErrorLib (Value.table 0) = Value.str "boom".toList ∧
    msghandler sampleRuntime sampleErrorLib (Value.table 0) ≠
      Value.str (sampleErrorLib.traceback "boom".toList) ∧
    msghandler sampleRuntime sampleErrorLib (Value.str "a\x00b".toList) =
      Value.str (sampleErrorLib.traceback "a".toList) ∧
    msghandler sampleRuntime sampleErrorLib (Value.str "a\x00b".toList) ≠
      Value.str (sampleErrorLib.traceback "a\x00b".toList) := by
  decide

/-! ## The interrupt bridge -/

theorem run_hook (events : List Event) :
    ∀ (s s2 : Bridge × Bool), run s events = some s2 →
      s2.1.hook = hookAfter s.1.hook events ∧ (s.2 = true → s2.2 = true) := by
  induction events with
  | nil =>
    intro s s2 h
    simp only [run, Option.some.injEq] at h
    subst h
    exact ⟨rfl, id⟩
  | cons e es ih =>
    intro s s2 h
    simp only [run] at h
    cases hs : step s e with
    | none => simp [hs] at h
    | some s1 =>
      rw [hs] at h
      obtain ⟨h1, h2⟩ := ih s1 s2 h
      have hflag : s.2 = true → s1.2 = true := by
        intro hf
        cases e with
        | sigint =>
          simp only [step] at hs
          split at hs
          · simp only [Option.some.injEq] at hs
            rw [← hs]
            exact hf
          · simp at hs
        | checkpoint =>
          simp only [step] at hs
          split at hs
          · simp only [Option.some.injEq] at hs
            rw [← hs]
          · simp only [Option.some.injEq] at hs
            rw [← hs]
            exact hf
      refine ⟨?_, fun hf => h2 (hflag hf)⟩
      rw [h1]
      cases es with
      | nil =>
        cases e with
        | sigint =>
          simp only [step] at hs
          split at hs
          · simp only [Option.some.injEq] at hs
            rw [← hs]
            rfl
          · simp at hs
        | checkpoint =>
          simp only [step] at hs
          split at hs
          · simp only [Option.some.injEq] at hs
            rw [← hs]
            rfl
          · rename_i hk
            simp only [Option.some.injEq] at hs
            rw [← hs]
            simpa [hookAfter] using hk
      | cons e2 es2 =>
        simp only [hookAfter, List.getLast?_cons_cons]
        cases hl : (e2 :: es2).getLast? with
        | none => simp at hl
        | some e3 => cases e3 <;> rfl

/-- C8 (amended): in the step model of the interrupt bridge, for every
interleaving of interrupt deliveries and checkpoints during a protected call,
when `docall` returns (with any status) the SIGINT disposition is the default
one. The abort hook is removed only by `lstop` at a checkpoint, not by
`docall`: after the return it is installed exactly when the last event of the
call was an interrupt delivery (or, with no event at all, when it was
installed before); and a call entered with the hook installed is interrupted
at its first checkpoint. -/
theorem docall_leaves_bridge (b : Bridge) (events : List Event) (b2 : Bridge) (r : Bool)
    (h : docall b events = some (b2, r)) :
    b2.disposition = Disposition.sigDfl ∧
    b2.hook = hookAfter b.hook events ∧
    (b.hook = true → ∀ es, events = Event.checkpoint :: es → r = true) := by
  simp only [docall, Option.map_eq_some', Prod.mk.injEq] at h
  obtain ⟨s, hs, h1, h2⟩ := h
  obtain ⟨h3, _⟩ := run_hook events _ s hs
  refine ⟨by rw [← h1], by rw [← h1]; exact h3, ?_⟩
  intro hb es he
  subst he
  simp only [run, step, hb, if_true, Option.some_bind] at hs
  rw [← h2]
  exact (run_hook es _ s hs).2 rfl

/-- Witness of C8: a call with a delivery followed by a checkpoint returns
interrupted with the bridge at rest. -/
theorem docall_leaves_bridge_witness :
    docall idle [Event.sigint, Event.checkpoint] = some (idle, true) ∧
    idle.disposition = Disposition.sigDfl ∧
    idle.hook = hookAfter idle.hook [Event.sigint, Event.checkpoint] :=
  ⟨by decide,
    (docall_leaves_bridge idle [Event.sigint, Event.checkpoint] idle true (by decide)).1,
    (docall_leaves_bridge idle [Event.sigint, Event.checkpoint] idle true (by decide)).2.1⟩

/-- Counterexample to C8 as stated: an interrupt delivered with no checkpoint
before `lua_pcall` returns leaves the hook installed when `docall` returns,
and the next call, in which no interrupt is delivered, is interrupted at its
first checkpoint. -/
theorem docall_hook_counterexample :
    docall idle [Event.sigint] = some ({ disposition := Disposition.sigDfl, hook := true }, false) ∧
    docall { disposition := Disposition.sigDfl, hook := true } [Event.checkpoint]
      = some (idle, true) := by
  decide

/-! ## The incomplete test on a message -/

theorem endsWithMark_iff (msg : List Char) :
    EndsWithMark msg ↔
      msg.length ≥ 5 ∧ msg.drop (msg.length - 5) = "<eof>".toList := by
  constructor
  · rintro ⟨m, rfl⟩
    have h5 : (m ++ EOFMARK).length - 5 = m.length := by simp [EOFMARK]
    refine ⟨by simp [EOFMARK], ?_⟩
    rw [h5, List.drop_left]
    rfl
  · rintro ⟨_, h⟩
    exact ⟨msg.take (msg.length - 5), by
      have := List.take_append_drop (msg.length - 5) msg
      rw [h] at this
      exact this.symm⟩

/-- C13: for every status and every error message `msg` on top of the stack,
`incomplete` returns 1 if and only if the status is `LUA_ERRSYNTAX` and the
message ends with the marker `<eof>` (its length is at least 5 and its last 5
characters are the marker); when it returns 1 the message is popped and
nothing else changes, and when it returns 0 the stack is unchanged. -/
theorem incomplete_detects_mark (R : Runtime) (status : Int) (msg : List Char)
    (below : List Value) (p : List Bool) (l h : List (List Char)) :
    ((incomplete R status
        { stack := Value.str msg :: below, prompts := p, loads := l, history := h }).1 = true ↔
      status = R.LUA_ERRSYNTAX ∧ msg.length ≥ 5 ∧
        msg.drop (msg.length - 5) = "<eof>".toList) ∧
    ((incomplete R status
        { stack := Value.str msg :: below, prompts := p, loads := l, history := h }).1 = true →
      (incomplete R status
        { stack := Value.str msg :: below, prompts := p, loads := l, history := h }).2 =
          { stack := below, prompts := p, loads := l, history := h }) ∧
    ((incomplete R status
        { stack := Value.str msg :: below, prompts := p, loads := l, history := h }).1 = false →
      (incomplete R status
        { stack := Value.str msg :: below, prompts := p, loads := l, history := h }).2 =
          { stack := Value.str msg :: below, prompts := p, loads := l, history := h }) := by
  have hinc : Incomplete R (status, top
      { stack := Value.str msg :: below, prompts := p, loads := l, history := h }) ↔
      status = R.LUA_ERRSYNTAX ∧ msg.length ≥ 5 ∧
        msg.drop (msg.length - 5) = "<eof>".toList := by
    rw [← endsWithMark_iff]
    constructor
    · rintro ⟨h1, m, h2, h3⟩
      simp only [top, List.headD_cons, lua_tolstring, Option.some.injEq] at h2
      exact ⟨h1, h2 ▸ h3⟩
    · rintro ⟨h1, h3⟩
      exact ⟨h1, msg, rfl, h3⟩
  by_cases hi : Incomplete R (status, top
      { stack := Value.str msg :: below, prompts := p, loads := l, history := h })
  · rw [incomplete_of R status _ hi]
    exact ⟨⟨fun _ => hinc.mp hi, fun _ => rfl⟩, fun _ => rfl, fun hf => by simp at hf⟩
  · rw [incomplete_of_not R status _ hi]
    exact ⟨⟨fun hf => by simp at hf, fun hc => absurd (hinc.mpr hc) hi⟩,
      fun hf => by simp at hf, fun _ => rfl⟩

theorem incomplete_sample :
    incomplete sampleRuntime 3
        { stack := [Value.str "stdin:1: 'end' expected near <eof>".toList, Value.str "if".toList],
          prompts := [], loads := [], history := [] } =
      (true, { stack := [Value.str "if".toList], prompts := [], loads := [], history := [] }) ∧
    incomplete sampleRuntime 3
        { stack := [Value.str "stdin:1: syntax error".toList, Value.str "x y".toList],
          prompts := [], loads := [], history := [] } =
      (false,
        { stack := [Value.str "stdin:1: syntax error".toList, Value.str "x y".toList],
          prompts := [], loads := [], history := [] }) ∧
    (incomplete sampleRuntime 2
        { stack := [Value.str "near <eof>".toList], prompts := [], loads := [],
          history := [] }).1 = false := by
  decide

/-! ## The value loadline leaves on the stack -/

theorem multiline_eof (R : Runtime) (bs : List (List Char)) :
    ∀ (acc : List Char) (c : Console), c.stack = [Value.str acc] →
    (∀ j ≤ bs.length,
      Incomplete R (R.loadbuffer (joinLines acc ((bs.take j).map (pushedLine false))))) →
    multiline R bs c =
      (R.LUA_ERRSYNTAX,
        { stack := [converted R (R.getglobal "_PROMPT2".toList),
                    Value.str (joinLines acc (bs.map (pushedLine false)))],
          prompts := c.prompts ++ List.replicate (bs.length + 1) false,
          loads := c.loads ++ attempts acc (bs.map (pushedLine false)),
          history := c.history ++ [cstr (joinLines acc (bs.map (pushedLine false)))] },
        []) := by
  induction bs with
  | nil =>
    intro acc c hc hinc
    have hline : (lua_tolstring R (bottom c)).getD [] = acc := by simp [bottom, hc, lua_tolstring]
    have h0 := hinc 0 (le_refl _)
    have hi := incomplete_of R (R.loadbuffer acc).1 (loadbuffer R acc c).2
      (by simpa [loadbuffer, push, top, joinLines] using h0)
    have hst : (R.loadbuffer acc).1 = R.LUA_ERRSYNTAX := by
      simpa [joinLines] using h0.1
    rw [multiline.eq_def]
    simp only [hline]
    have h1 : (loadbuffer R acc c).1 = (R.loadbuffer acc).1 := rfl
    rw [h1, hi]
    simp [loadbuffer, push, pop, saveline, pushline, get_prompt, hc, joinLines, attempts, hst]
  | cons b bs ih =>
    intro acc c hc hinc
    have hline : (lua_tolstring R (bottom c)).getD [] = acc := by simp [bottom, hc, lua_tolstring]
    have h0 := hinc 0 (Nat.zero_le _)
    have hi := incomplete_of R (R.loadbuffer acc).1 (loadbuffer R acc c).2
      (by simpa [loadbuffer, push, top, joinLines] using h0)
    rw [multiline]
    simp only [hline]
    have h1 : (loadbuffer R acc c).1 = (R.loadbuffer acc).1 := rfl
    rw [h1, hi]
    simp only [if_true]
    have hstep := ih (acc ++ '\n' :: pushedLine false b)
      (concat3 (insertSecond (push (Value.str ['\n'])
        (pushline R false (some b) (pop 1 (loadbuffer R acc c).2)).2)))
      (by simp [concat3, insertSecond, push, pushline, get_prompt, pop, loadbuffer, hc])
      (fun j hj => by
        have := hinc (j + 1) (by simpa using hj)
        simpa [joinLines] using this)
    rw [hstep]
    have hj : joinLines acc (List.map (pushedLine false) (b :: bs)) =
        joinLines (acc ++ '\n' :: pushedLine false b) (List.map (pushedLine false) bs) := by
      simp [joinLines]
    rw [hj]
    simp [concat3, insertSecond, push, pushline, get_prompt, pop, loadbuffer, hc,
      attempts_cons, List.replicate_succ]

theorem loadline_error_message (R : Runtime) (b : List Char) (bs rest : List (List Char))
    (c : Console)
    (hexpr : (R.loadbuffer (returnText (pushedLine true b))).1 ≠ R.LUA_OK)
    (hinc : ∀ j < bs.length, Incomplete R (R.loadbuffer
      (joinLines (pushedLine true b) ((bs.take j).map (pushedLine false)))))
    (hfin : ¬ Incomplete R (R.loadbuffer
      (joinLines (pushedLine true b) (bs.map (pushedLine false))))) :
    (loadline R (b :: (bs ++ rest)) c).2.1.stack =
      [(R.loadbuffer (joinLines (pushedLine true b) (bs.map (pushedLine false)))).2] ∧
    (report R (loadline R (b :: (bs ++ rest)) c).1 (loadline R (b :: (bs ++ rest)) c).2.1).1 =
      if (R.loadbuffer (joinLines (pushedLine true b) (bs.map (pushedLine false)))).1
          = R.LUA_OK then none
      else some (lua_tostring R
        (R.loadbuffer (joinLines (pushedLine true b) (bs.map (pushedLine false)))).2) := by
  have ha := addreturn_eq R (pushline R true (some b) { c with stack := [] }).2
    (pushedLine true b) [] (pushedLine_no_nul true b)
    (by simp [pushline, get_prompt, push, pop])
  rw [if_neg hexpr] at ha
  have hm := multiline_eq R bs rest (pushedLine true b)
    (addreturn R (pushline R true (some b) { c with stack := [] }).2).2
    (by rw [ha]; simp [pushline, get_prompt, push, pop]) hinc hfin
  have hne : ((R.loadbuffer (returnText (pushedLine true b))).1 != R.LUA_OK) = true := by
    simpa using hexpr
  simp only [loadline, hm]
  rw [ha]
  simp only [hne, if_true]
  refine ⟨by simp [removeBottom], ?_⟩
  by_cases hok : (R.loadbuffer (joinLines (pushedLine true b)
      (bs.map (pushedLine false)))).1 = R.LUA_OK
  · simp [report, hok]
  · have : ((R.loadbuffer (joinLines (pushedLine true b)
        (bs.map (pushedLine false)))).1 != R.LUA_OK) = true := by simpa using hok
    simp [report, hok, this, removeBottom, top]

theorem loadline_eof_leaves_prompt (R : Runtime) (b : List Char) (bs : List (List Char))
    (c : Console)
    (hexpr : (R.loadbuffer (returnText (pushedLine true b))).1 ≠ R.LUA_OK)
    (hinc : ∀ j ≤ bs.length, Incomplete R (R.loadbuffer
      (joinLines (pushedLine true b) ((bs.take j).map (pushedLine false))))) :
    (loadline R (b :: bs) c).1 = R.LUA_ERRSYNTAX ∧
    (loadline R (b :: bs) c).2.1.stack = [converted R (R.getglobal "_PROMPT2".toList)] := by
  have ha := addreturn_eq R (pushline R true (some b) { c with stack := [] }).2
    (pushedLine true b) [] (pushedLine_no_nul true b)
    (by simp [pushline, get_prompt, push, pop])
  rw [if_neg hexpr] at ha
  have hm := multiline_eof R bs (pushedLine true b)
    (addreturn R (pushline R true (some b) { c with stack := [] }).2).2
    (by rw [ha]; simp [pushline, get_prompt, push, pop]) hinc
  have hne : ((R.loadbuffer (returnText (pushedLine true b))).1 != R.LUA_OK) = true := by
    simpa using hexpr
  simp only [loadline, hm]
  rw [ha]
  simp only [hne, if_true]
  exact ⟨trivial, by simp [removeBottom]⟩

/-- A numeric `_PROMPT2` is left on the stack as the string `lua_tostring` made
of it when the input ends on a continuation line. -/
theorem loadline_eof_number_prompt :
    (loadline numberPromptRuntime ["for i=1,3 do".toList] emptyConsole).2.1.stack =
      [Value.str "7".toList] := by
  decide

/-- C11, the code at the failing input: the line source yields `for i=1,3 do`
and then no further input. `loadline` returns the syntax status 3 with one
value on the stack, and that value is the value of the global `_PROMPT2` (nil
when it is unset, the prompt string when it is set), not the compiler's
message `stdin:1: 'end' expected near <eof>`; `report` hands `l_message` NULL,
respectively the prompt. When the compiler reports a syntax error that is
not incomplete, the single value is the compiler's message. -/
theorem loadline_eof_reports_prompt :
    sampleCompile "for i=1,3 do".toList =
      (3, Value.str "stdin:1: 'end' expected near <eof>".toList) ∧
    loadline sampleRuntime ["for i=1,3 do".toList] emptyConsole =
      (3, { stack := [Value.nil], prompts := [true, false],
            loads := ["return for i=1,3 do;".toList, "for i=1,3 do".toList],
            history := ["for i=1,3 do".toList] }, []) ∧
    (report sampleRuntime 3
      (loadline sampleRuntime ["for i=1,3 do".toList] emptyConsole).2.1).1 = some none ∧
    (loadline promptRuntime ["for i=1,3 do".toList] emptyConsole).2.1.stack =
      [Value.str ">> ".toList] ∧
    (report promptRuntime 3
      (loadline promptRuntime ["for i=1,3 do".toList] emptyConsole).2.1).1
        = some (some ">> ".toList) ∧
    loadline sampleRuntime ["x y".toList] emptyConsole =
      (3, { stack := [Value.str "stdin:1: syntax error".toList], prompts := [true],
            loads := ["return x y;".toList, "x y".toList],
            history := ["x y".toList] }, []) := by
  decide

/-! ## Which nodes the enumeration skips -/

theorem enumerates_iff (st : LuaState) (loop : Nat) (node : Value) :
    enumerates st loop node = true ↔
      (∃ t, node = Value.table t) ∧ (loop = 0 ∨ node ≠ st.globals) := by
  cases node <;> simp [enumerates]

theorem enumLoop_log (st : LuaState) (text : List Char) (dot n : Nat) (k : Nat) :
    ∀ (loop : Nat) (node : Value) (ml : dmlist) (log : List (Value × Bool)),
      ∃ new, (enumLoop st text dot n k loop node ml log).2 = log ++ new ∧
        ∀ (i : Nat) (e : Value × Bool), new[i]? = some e → e.2 = enumerates st (loop + i) e.1 := by
  induction k with
  | zero =>
    intro loop node ml log
    exact ⟨[], by simp [enumLoop], by simp⟩
  | succ k ih =>
    intro loop node ml log
    have hone : ∀ (i : Nat) (e : Value × Bool),
        [(node, enumerates st loop node)][i]? = some e → e.2 = enumerates st (loop + i) e.1 := by
      intro i e he
      cases i with
      | zero =>
        simp only [List.getElem?_cons_zero, Option.some.injEq] at he
        rw [← he]
        rfl
      | succ i => simp at he
    have key : ∀ (next : Value) (ml2 : dmlist), ∃ new,
        (enumLoop st text dot n k (loop + 1) next ml2
          (log ++ [(node, enumerates st loop node)])).2 = log ++ new ∧
        ∀ (i : Nat) (e : Value × Bool), new[i]? = some e →
          e.2 = enumerates st (loop + i) e.1 := by
      intro next ml2
      obtain ⟨new, h1, h2⟩ := ih (loop + 1) next ml2 (log ++ [(node, enumerates st loop node)])
      refine ⟨(node, enumerates st loop node) :: new, by rw [h1]; simp, ?_⟩
      intro i e he
      cases i with
      | zero => exact hone 0 e (by simpa using he)
      | succ i =>
        have := h2 i e (by simpa using he)
        rw [this]
        congr 1
        omega
    simp only [enumLoop]
    split
    · split
      · exact key _ _
      · exact ⟨[(node, enumerates st loop node)], rfl, hone⟩
    · exact ⟨[(node, enumerates st loop node)], rfl, hone⟩

theorem addEntry_items_append (st : LuaState) (text : List Char) (dot n : Nat) (ml : dmlist)
    (e : Value × Value) :
    (addEntry st text dot n ml e).items =
      ml.items ++ (addEntry st text dot n dminit e).items := by
  unfold addEntry
  split
  · split
    · simp [lua_rl_dmadd, dminit]
    · simp [dminit]
  · simp [dminit]

theorem addEntries_items_append (st : LuaState) (text : List Char) (dot n : Nat) (t : Nat) :
    ∀ ml : dmlist, (addEntries st text dot n ml t).items =
      ml.items ++ tableItems st text dot n t := by
  have key : ∀ (es : List (Value × Value)) (ml : dmlist),
      (es.foldl (addEntry st text dot n) ml).items =
        ml.items ++ (es.foldl (addEntry st text dot n) dminit).items := by
    intro es
    induction es with
    | nil => intro ml; simp [dminit]
    | cons e es ih =>
      intro ml
      rw [List.foldl_cons, ih, List.foldl_cons, ih (addEntry st text dot n dminit e),
        addEntry_items_append st text dot n ml e, List.append_assoc]
  intro ml
  exact key _ ml

theorem chainNode_of_none (st : LuaState) (node : Value)
    (h : lua_rl_getmetaindex st node = none) (j : Nat) : chainNode st node (j + 1) = none := by
  rw [chainNode_succ_left, h]
  rfl

theorem chainNode_of_some (st : LuaState) (node next : Value)
    (h : lua_rl_getmetaindex st node = some next) (j : Nat) :
    chainNode st node (j + 1) = chainNode st next j := by
  rw [chainNode_succ_left, h]
  rfl

theorem enumLoop_body_items (st : LuaState) (text : List Char) (dot n loop : Nat)
    (node : Value) (ml : dmlist) :
    (match node with
      | .table t => if enumerates st loop node then addEntries st text dot n ml t else ml
      | _ => ml).items = ml.items ++ nodeItems st text dot n loop (some node) := by
  cases node with
  | table t =>
    by_cases h : loop = 0 ∨ Value.table t ≠ st.globals
    · have he : enumerates st loop (Value.table t) = true :=
        (enumerates_iff st loop _).mpr ⟨⟨t, rfl⟩, h⟩
      simp only [he, if_true, nodeItems, h]
      exact addEntries_items_append st text dot n t ml
    · have he : enumerates st loop (Value.table t) = false := by
        cases hb : enumerates st loop (Value.table t) with
        | false => rfl
        | true => exact absurd ((enumerates_iff st loop _).mp hb).2 h
      simp [he, nodeItems, h]
  | _ => simp [nodeItems]

theorem enumLoop_items (st : LuaState) (text : List Char) (dot n : Nat) (k : Nat) :
    ∀ (loop : Nat) (node : Value) (ml : dmlist) (log : List (Value × Bool)),
      loop + k = 20 →
      (enumLoop st text dot n k loop node ml log).1.items =
        ml.items ++ (List.range k).flatMap
          (fun j => nodeItems st text dot n (loop + j) (chainNode st node j)) := by
  induction k with
  | zero => intro loop node ml log _; simp [enumLoop]
  | succ k ih =>
    intro loop node ml log hk
    have hbody := enumLoop_body_items st text dot n loop node ml
    have hrange : (List.range (k + 1)).flatMap
        (fun j => nodeItems st text dot n (loop + j) (chainNode st node j)) =
        nodeItems st text dot n loop (some node) ++ (List.range k).flatMap
          (fun j => nodeItems st text dot n (loop + (j + 1)) (chainNode st node (j + 1))) := by
      rw [List.range_succ_eq_map]
      simp [List.flatMap_map, chainNode, Function.comp_def]
    rw [hrange]
    cases hm : lua_rl_getmetaindex st node with
    | some next =>
      have hf : (fun j => nodeItems st text dot n (loop + (j + 1)) (chainNode st node (j + 1)))
          = (fun j => nodeItems st text dot n (loop + 1 + j) (chainNode st next j)) := by
        funext j
        rw [chainNode_of_some st node next hm j, Nat.add_assoc, Nat.add_comm 1 j]
      by_cases hlt : loop + 1 < 20
      · simp only [enumLoop, hm, hlt, if_true]
        rw [ih (loop + 1) next _ _ (by omega), hbody, List.append_assoc, hf]
      · have hk0 : k = 0 := by omega
        subst hk0
        simp only [enumLoop, hlt, if_false]
        rw [hbody]
        simp
    | none =>
      have hz : (List.range k).flatMap
          (fun j => nodeItems st text dot n (loop + (j + 1)) (chainNode st node (j + 1)))
            = [] := by
        simp only [List.flatMap_eq_nil_iff]
        intro j _
        rw [chainNode_of_none st node hm j]
        rfl
      rw [hz]
      by_cases hlt : loop + 1 < 20
      · simp only [enumLoop, hm, hlt, if_true]
        rw [hbody, List.append_nil]
      · simp only [enumLoop, hlt, if_false]
        rw [hbody, List.append_nil]

theorem enumLoop_nodes (st : LuaState) (text : List Char) (dot n : Nat) (k : Nat) :
    ∀ (loop : Nat) (node : Value) (ml : dmlist) (log : List (Value × Bool)),
      ∃ new, (enumLoop st text dot n k loop node ml log).2 = log ++ new ∧
        ∀ (i : Nat) (e : Value × Bool), new[i]? = some e → chainNode st node i = some e.1 := by
  induction k with
  | zero =>
    intro loop node ml log
    exact ⟨[], by simp [enumLoop], by simp⟩
  | succ k ih =>
    intro loop node ml log
    have hone : ∀ (i : Nat) (e : Value × Bool),
        [(node, enumerates st loop node)][i]? = some e → chainNode st node i = some e.1 := by
      intro i e he
      cases i with
      | zero =>
        simp only [List.getElem?_cons_zero, Option.some.injEq] at he
        rw [← he]
        rfl
      | succ i => simp at he
    have key : ∀ (next : Value) (ml2 : dmlist), lua_rl_getmetaindex st node = some next →
        ∃ new, (enumLoop st text dot n k (loop + 1) next ml2
          (log ++ [(node, enumerates st loop node)])).2 = log ++ new ∧
        ∀ (i : Nat) (e : Value × Bool), new[i]? = some e →
          chainNode st node i = some e.1 := by
      intro next ml2 hnext
      obtain ⟨new, h1, h2⟩ := ih (loop + 1) next ml2 (log ++ [(node, enumerates st loop node)])
      refine ⟨(node, enumerates st loop node) :: new, by rw [h1]; simp, ?_⟩
      intro i e he
      cases i with
      | zero => exact hone 0 e (by simpa using he)
      | succ i =>
        rw [chainNode_of_some st node next hnext i]
        exact h2 i e (by simpa using he)
    cases hm : lua_rl_getmetaindex st node with
    | some next =>
      by_cases hlt : loop + 1 < 20
      · simp only [enumLoop, hm, hlt, if_true]
        exact key next _ hm
      · simp only [enumLoop, hlt, if_false]
        exact ⟨[(node, enumerates st loop node)], rfl, hone⟩
    | none =>
      by_cases hlt : loop + 1 < 20
      · simp only [enumLoop, hm, hlt, if_true]
        exact ⟨[(node, enumerates st loop node)], rfl, hone⟩
      · simp only [enumLoop, hlt, if_false]
        exact ⟨[(node, enumerates st loop node)], rfl, hone⟩

theorem complete_visited (st : LuaState) (text : List Char) (start stop : Nat) (node : Value)
    (dot : Nat)
    (hg : (charAt text 0 == NUL || isalpha (charAt text 0) || charAt text 0 == '_') = true)
    (hpath : (pathLoop st text (stop - start) 0 0 st.globals []).1 = some (node, dot)) :
    (lua_rl_complete st text start stop).visited =
      (enumLoop st text dot (stop - start) 20 0 node
        (if dot == 0 then addKeywords text (stop - start) dminit else dminit) []).2 := by
  dsimp only [lua_rl_complete]
  rw [hg]
  simp only [Bool.not_true, Bool.false_eq_true, if_false]
  generalize pathLoop st text (stop - start) 0 0 st.globals [] = r at hpath
  rcases r with ⟨_ | ⟨node2, dot2⟩, lg⟩
  · simp at hpath
  · simp only [Option.some.injEq, Prod.mk.injEq] at hpath
    obtain ⟨h1, h2⟩ := hpath
    subst h1 h2
    dsimp only
    generalize (if (dot2 == 0) = true then addKeywords text (stop - start) dminit
      else dminit) = ml0
    split <;> rfl

theorem complete_none (st : LuaState) (text : List Char) (start stop : Nat) (node : Value)
    (dot : Nat)
    (hpath : (pathLoop st text (stop - start) 0 0 st.globals []).1 = some (node, dot))
    (hidx : (enumLoop st text dot (stop - start) 20 0 node
      (if dot == 0 then addKeywords text (stop - start) dminit else dminit) []).1.items = []) :
    (lua_rl_complete st text start stop).result = none := by
  dsimp only [lua_rl_complete]
  split
  · rfl
  · generalize pathLoop st text (stop - start) 0 0 st.globals [] = r at hpath
    rcases r with ⟨_ | ⟨node2, dot2⟩, lg⟩
    · simp at hpath
    · simp only [Option.some.injEq, Prod.mk.injEq] at hpath
      obtain ⟨h1, h2⟩ := hpath
      subst h1 h2
      dsimp only
      have h0 : ((enumLoop st text dot2 (stop - start) 20 0 node2
          (if dot2 == 0 then addKeywords text (stop - start) dminit else dminit) []).1.idx == 0)
            = true := by
        rw [dmlist.idx, hidx]
        rfl
      rw [h0]
      rfl

theorem complete_candidates (st : LuaState) (text : List Char) (start stop : Nat) (node : Value)
    (dot : Nat)
    (hg : (charAt text 0 == NUL || isalpha (charAt text 0) || charAt text 0 == '_') = true)
    (hpath : (pathLoop st text (stop - start) 0 0 st.globals []).1 = some (node, dot)) :
    (∀ l, (lua_rl_complete st text start stop).result = some l →
      l.tail = (if dot = 0 then (addKeywords text (stop - start) dminit).items else []) ++
        chainItems st text dot (stop - start) node ++ [none]) ∧
    ((lua_rl_complete st text start stop).result = none ↔
      (if dot = 0 then (addKeywords text (stop - start) dminit).items else []) ++
        chainItems st text dot (stop - start) node = []) := by
  have hitems : (enumLoop st text dot (stop - start) 20 0 node
      (if dot == 0 then addKeywords text (stop - start) dminit else dminit) []).1.items =
      (if dot = 0 then (addKeywords text (stop - start) dminit).items else []) ++
        chainItems st text dot (stop - start) node := by
    rw [enumLoop_items st text dot (stop - start) 20 0 node _ [] (by omega)]
    have hkw : (if dot == 0 then addKeywords text (stop - start) dminit else dminit).items =
        (if dot = 0 then (addKeywords text (stop - start) dminit).items else []) := by
      by_cases hd : dot = 0 <;> simp [hd, dminit]
    rw [hkw]
    simp [chainItems]
  have hg2 : (!(charAt text 0 == NUL || isalpha (charAt text 0) || charAt text 0 == '_'))
      = false := by rw [hg]; rfl
  by_cases he : (enumLoop st text dot (stop - start) 20 0 node
      (if dot == 0 then addKeywords text (stop - start) dminit else dminit) []).1.items = []
  · have hn := complete_none st text start stop node dot hpath he
    refine ⟨fun l hl => ?_, ⟨fun _ => by rw [← hitems]; exact he, fun _ => hn⟩⟩
    rw [hn] at hl
    simp at hl
  · have hr := complete_result st text start stop node dot
      (pathLoop st text (stop - start) 0 0 st.globals []).2 hg2
      (by rw [← hpath]) he
    refine ⟨fun l hl => ?_, ?_⟩
    · rw [hr] at hl
      simp only [Option.some.injEq] at hl
      rw [← hl, List.tail_cons, hitems]
    · rw [← hitems]
      constructor
      · intro h
        rw [hr] at h
        simp at h
      · intro h
        exact absurd h he

/-- C12 (amended): during one completion request, on every namespace graph,
the enumeration loop runs on at most 20 nodes of the metatable `__index`
chain of the resolved node, and the entries of the `i`-th node are enumerated
exactly when it is a table and it is the first node or is not the global
table. The candidates returned are the keyword candidates (when the text has
no separator) followed, node by node in chain order over the first 20 nodes,
by the candidates of the entries of each such node, and by the closing NULL;
no match is reported exactly when there is no such candidate. So the global
table reached while following the chain is skipped (it is enumerated only as
the first node, hence at most once); any other table contributes its entries
every time the chain reaches it, so no other node is skipped for having been
visited before. -/
theorem enumeration_skips_globals (st : LuaState) (text : List Char) (start stop : Nat) :
    (lua_rl_complete st text start stop).visited.length ≤ 20 ∧
    (∀ (i : Nat) (node : Value) (flag : Bool),
      (lua_rl_complete st text start stop).visited[i]? = some (node, flag) →
      (flag = true ↔ (∃ t, node = Value.table t) ∧ (i = 0 ∨ node ≠ st.globals))) ∧
    (∀ i : Nat, (lua_rl_complete st text start stop).visited[i]? = some (st.globals, true) →
      i = 0) ∧
    (∀ (root : Value) (dot : Nat),
      (charAt text 0 == NUL || isalpha (charAt text 0) || charAt text 0 == '_') = true →
      (pathLoop st text (stop - start) 0 0 st.globals []).1 = some (root, dot) →
      (∀ (i : Nat) (node : Value) (flag : Bool),
        (lua_rl_complete st text start stop).visited[i]? = some (node, flag) →
        chainNode st root i = some node) ∧
      ∃ cands : List (Option (List Char)),
        cands =
          (if dot = 0 then (addKeywords text (stop - start) dminit).items else []) ++
            (List.range 20).flatMap (fun i =>
              match chainNode st root i with
              | some (Value.table t) =>
                if i = 0 ∨ Value.table t ≠ st.globals then
                  (addEntries st text dot (stop - start) dminit t).items
                else []
              | _ => []) ∧
        (∀ l, (lua_rl_complete st text start stop).result = some l →
          l.tail = cands ++ [none]) ∧
        ((lua_rl_complete st text start stop).result = none ↔ cands = [])) := by
  have hflag : ∀ (i : Nat) (node : Value) (flag : Bool),
      (lua_rl_complete st text start stop).visited[i]? = some (node, flag) →
      flag = enumerates st i node := by
    intro i node flag h
    rcases (complete_traces st text start stop).2 with h2 | ⟨nd, dot, ml, h2⟩
    · rw [h2] at h
      simp at h
    · rw [h2] at h
      obtain ⟨new, h3, h4⟩ := enumLoop_log st text dot (stop - start) 20 0 nd ml []
      rw [h3, List.nil_append] at h
      simpa using h4 i (node, flag) h
  have hlen : (lua_rl_complete st text start stop).visited.length ≤ 20 := by
    rcases (complete_traces st text start stop).2 with h2 | ⟨nd, dot, ml, h2⟩
    · rw [h2]; simp
    · rw [h2]
      simpa using enumLoop_visited st text dot (stop - start) 20 0 nd ml []
  refine ⟨hlen, ?_, ?_, ?_⟩
  · intro i node flag h
    rw [hflag i node flag h]
    exact enumerates_iff st i node
  · intro i h
    have := (enumerates_iff st i st.globals).mp (hflag i st.globals true h).symm
    rcases this.2 with h0 | h0
    · exact h0
    · exact absurd rfl h0
  · intro root dot hg hpath
    constructor
    · intro i node flag h
      rw [complete_visited st text start stop root dot hg hpath] at h
      obtain ⟨new, h3, h4⟩ := enumLoop_nodes st text dot (stop - start) 20 0 root
        (if dot == 0 then addKeywords text (stop - start) dminit else dminit) []
      rw [h3, List.nil_append] at h
      exact h4 i (node, flag) h
    · refine ⟨_, ?_, complete_candidates st text start stop root dot hg hpath⟩
      rfl

/-- Witness of C12: completing `table.` in the sample namespace, where the
metatable of `table` sends `__index` to the globals: the global table is
reached second and skipped, so the candidates are those of the entries of
`table` alone. -/
theorem enumeration_skips_globals_witness :
    (lua_rl_complete sampleState "table.".toList 0 6).visited =
      [(Value.table 1, true), (Value.table 0, false)] ∧
    ((false = true) ↔ (∃ t, Value.table 0 = Value.table t) ∧
      (1 = 0 ∨ Value.table 0 ≠ sampleState.globals)) ∧
    (∀ l, (lua_rl_complete sampleState "table.".toList 0 6).result = some l →
      l.tail = (addEntries sampleState "table.".toList 6 6 dminit 1).items ++ [none]) := by
  refine ⟨by decide, (enumeration_skips_globals sampleState "table.".toList 0 6).2.1 1
    (Value.table 0) false (by decide), ?_⟩
  obtain ⟨_, cands, hc, hl, _⟩ := (enumeration_skips_globals sampleState "table.".toList 0 6).2.2.2
    (Value.table 1) 6 (by decide) (by decide)
  intro l h
  rw [hl l h, hc]
  decide

/-- Counterexample to C12 as stated: on the chain where the `__index` of table
`1` is table `3` and the `__index` of table `3` is table `1`, completing `t.`
enumerates table `1` as the first and again as the third node (and so on, ten
times), and its candidate `t.a ` is listed again each time. -/
theorem enumeration_repeats_counterexample :
    (lua_rl_complete cycleState "t.".toList 0 2).visited[0]? = some (Value.table 1, true) ∧
    (lua_rl_complete cycleState "t.".toList 0 2).visited[2]? = some (Value.table 1, true) ∧
    ((lua_rl_complete cycleState "t.".toList 0 2).visited.filter
      (fun e => e == (Value.table 1, true))).length = 10 ∧
    (((lua_rl_complete cycleState "t.".toList 0 2).result.getD []).filter
      (fun c => c == some "t.a ".toList)).length = 10 := by
  decide

/-! ## collectargs -/

theorem outcome_prepend (pre rest : List (List Char)) (i args : Nat) (r : Nat × Nat)
    (hpre : ∀ opts, Handled opts → Handled (pre ++ opts))
    (h : Outcome rest (i + pre.length) (pre.foldl (fun m a => m ||| optionBits a) args) r) :
    Outcome (pre ++ rest) i args r := by
  rcases h with ⟨opts, bad, rem, h1, h2, h3, h4⟩ | ⟨opts, rem, h1, h2, h3⟩
  · left
    refine ⟨pre ++ opts, bad, rem, hpre opts h1, by rw [h2, List.append_assoc], h3, ?_⟩
    rw [h4, List.length_append, Nat.add_assoc]
  · right
    refine ⟨pre ++ opts, rem, hpre opts h1, by rw [h2, List.foldl_append], ?_⟩
    rcases h3 with ⟨h5, h6, h7⟩ | ⟨h5, h7⟩
    · left
      exact ⟨by rw [h5, List.append_assoc], h6, by rw [h7, List.length_append, Nat.add_assoc]⟩
    · right
      exact ⟨by rw [h5, List.append_assoc], by rw [h7, List.length_append]; omega⟩

theorem outcome_stop (l : List (List Char)) (i args : Nat) (h : ScriptOrEnd l) :
    Outcome l i args (args, i) :=
  Or.inr ⟨[], l, Handled.done, rfl, Or.inl ⟨rfl, h, rfl⟩⟩

theorem outcome_bad (bad : List Char) (rest : List (List Char)) (i args : Nat)
    (h : BadOption bad rest.head?) : Outcome (bad :: rest) i args (has_error, i) :=
  Or.inl ⟨[], bad, rest, Handled.done, rfl, h, rfl⟩

theorem optionBits_not_dash (b : List Char) (h : b.head? ≠ some '-') : optionBits b = 0 := by
  cases b with
  | nil => decide
  | cons c b =>
    have hc : c ≠ '-' := fun hc => h (by simp [hc])
    have hc2 : ¬ ('-' = c) := fun hc2 => hc hc2.symm
    simp [optionBits, hc2, hc]

theorem collectLoop_outcome (n : Nat) :
    ∀ (l : List (List Char)) (i args : Nat), l.length ≤ n →
      (∀ a ∈ l, ∀ x ∈ a, x ≠ NUL) → Outcome l i args (collectLoop l i args) := by
  induction n using Nat.strong_induction_on with
  | _ n ih =>
    intro l i args hl hnul
    cases l with
    | nil => exact outcome_stop [] i args (Or.inl rfl)
    | cons a rest =>
      have hrest : ∀ b ∈ rest, ∀ x ∈ b, x ≠ NUL :=
        fun b hb => hnul b (List.mem_cons_of_mem _ hb)
      have ha : ∀ x ∈ a, x ≠ NUL := hnul a (List.mem_cons_self _ _)
      have hn : rest.length < n := by simpa using hl
      have ihrest : ∀ (j m : Nat), Outcome rest j m (collectLoop rest j m) :=
        fun j m => ih rest.length hn rest j m (le_refl _) hrest
      cases a with
      | nil =>
        have hr : collectLoop ([] :: rest) i args = (args, i) := by
          rw [collectLoop.eq_def]
          simp [charAt]
          decide
        rw [hr]
        exact outcome_stop _ i args (Or.inr ⟨[], rest, rfl, Or.inl (by simp)⟩)
      | cons c0 t =>
        by_cases h0 : c0 = '-'
        · subst h0
          cases t with
          | nil =>
            have hr : collectLoop (['-'] :: rest) i args = (args, i) := by
              rw [collectLoop.eq_def]
              simp [charAt]
              decide
            rw [hr]
            exact outcome_stop _ i args (Or.inr ⟨['-'], rest, rfl, Or.inr rfl⟩)
          | cons c1 x =>
            have hc1 : c1 ≠ NUL := ha c1 (by simp)
            have hnE : ('E' : Char) ≠ NUL := by decide
            have hnI : ('i' : Char) ≠ NUL := by decide
            have hnV : ('v' : Char) ≠ NUL := by decide
            have hne : ('e' : Char) ≠ NUL := by decide
            have hnl : ('l' : Char) ≠ NUL := by decide
            by_cases h1 : c1 = '-'
            · subst h1
              cases x with
              | nil =>
                have hr : collectLoop (['-', '-'] :: rest) i args = (args, i + 1) := by
                  rw [collectLoop.eq_def]
                  simp [charAt]
                rw [hr]
                exact Or.inr ⟨[], rest, Handled.done, rfl, Or.inr ⟨rfl, rfl⟩⟩
              | cons y x2 =>
                have hy : y ≠ NUL := ha y (by simp)
                have hr : collectLoop (('-' :: '-' :: y :: x2) :: rest) i args =
                    (has_error, i) := by
                  rw [collectLoop.eq_def]
                  simp [charAt, hy]
                rw [hr]
                exact outcome_bad _ rest i args
                  ⟨'-', y :: x2, rfl, Or.inl ⟨rfl, by simp⟩⟩
            · by_cases hE : c1 = 'E'
              · subst hE
                cases x with
                | nil =>
                  have hr : collectLoop (['-', 'E'] :: rest) i args =
                      collectLoop rest (i + 1) (args ||| has_E) := by
                    rw [collectLoop.eq_def]
                    simp [charAt, hnE, hnI, hnV, hne, hnl]
                  rw [hr]
                  have hb : [['-', 'E']].foldl (fun m a => m ||| optionBits a) args
                      = args ||| has_E := by
                    simp [optionBits, has_E, has_i, has_v, has_e]
                  exact outcome_prepend [['-', 'E']] rest i args _
                    (fun opts ho => Handled.flag _ _ (by decide) ho)
                    (by rw [hb]; exact ihrest _ _)
                | cons y x2 =>
                  have hy : y ≠ NUL := ha y (by simp)
                  have hr : collectLoop (('-' :: 'E' :: y :: x2) :: rest) i args =
                      (has_error, i) := by
                    rw [collectLoop.eq_def]
                    simp [charAt, hy, hnE, hnI, hnV, hne, hnl]
                  rw [hr]
                  exact outcome_bad _ rest i args
                    ⟨'E', y :: x2, rfl, Or.inr (Or.inl ⟨by decide, by simp⟩)⟩
              by_cases hI : c1 = 'i'
              · subst hI
                cases x with
                | nil =>
                  have hr : collectLoop (['-', 'i'] :: rest) i args =
                      collectLoop rest (i + 1) (args ||| has_i ||| has_v) := by
                    rw [collectLoop.eq_def]
                    simp [charAt, hnE, hnI, hnV, hne, hnl]
                  rw [hr]
                  have hb : [['-', 'i']].foldl (fun m a => m ||| optionBits a) args
                      = args ||| has_i ||| has_v := by
                    simp [optionBits, has_E, has_i, has_v, has_e, Nat.lor_assoc]
                  exact outcome_prepend [['-', 'i']] rest i args _
                    (fun opts ho => Handled.flag _ _ (by decide) ho)
                    (by rw [hb]; exact ihrest _ _)
                | cons y x2 =>
                  have hy : y ≠ NUL := ha y (by simp)
                  have hr : collectLoop (('-' :: 'i' :: y :: x2) :: rest) i args =
                      (has_error, i) := by
                    rw [collectLoop.eq_def]
                    simp [charAt, hy, hnE, hnI, hnV, hne, hnl]
                  rw [hr]
                  exact outcome_bad _ rest i args
                    ⟨'i', y :: x2, rfl, Or.inr (Or.inl ⟨by decide, by simp⟩)⟩
              by_cases hV : c1 = 'v'
              · subst hV
                cases x with
                | nil =>
                  have hr : collectLoop (['-', 'v'] :: rest) i args =
                      collectLoop rest (i + 1) (args ||| has_v) := by
                    rw [collectLoop.eq_def]
                    simp [charAt, hnE, hnI, hnV, hne, hnl]
                  rw [hr]
                  have hb : [['-', 'v']].foldl (fun m a => m ||| optionBits a) args
                      = args ||| has_v := by
                    simp [optionBits, has_E, has_i, has_v, has_e]
                  exact outcome_prepend [['-', 'v']] rest i args _
                    (fun opts ho => Handled.flag _ _ (by decide) ho)
                    (by rw [hb]; exact ihrest _ _)
                | cons y x2 =>
                  have hy : y ≠ NUL := ha y (by simp)
                  have hr : collectLoop (('-' :: 'v' :: y :: x2) :: rest) i args =
                      (has_error, i) := by
                    rw [collectLoop.eq_def]
                    simp [charAt, hy, hnE, hnI, hnV, hne, hnl]
                  rw [hr]
                  exact outcome_bad _ rest i args
                    ⟨'v', y :: x2, rfl, Or.inr (Or.inl ⟨by decide, by simp⟩)⟩
              by_cases he : c1 = 'e'
              · subst he
                cases x with
                | nil =>
                  cases rest with
                  | nil =>
                    have hr : collectLoop [['-', 'e']] i args = (has_error, i) := by
                      rw [collectLoop.eq_def]
                      simp [charAt, hnE, hnI, hnV, hne, hnl]
                    rw [hr]
                    exact outcome_bad _ [] i args
                      ⟨'e', [], rfl, Or.inr (Or.inr (Or.inl ⟨by decide, rfl, Or.inl rfl⟩))⟩
                  | cons b rest2 =>
                    by_cases hb : b.head? = some '-'
                    · have hb0 : charAt b 0 = '-' := by
                        cases b with
                        | nil => simp at hb
                        | cons b0 b1 => simpa [charAt] using hb
                      have hr : collectLoop (['-', 'e'] :: b :: rest2) i args =
                          (has_error, i) := by
                        rw [collectLoop.eq_def]
                        simp [charAt, hnE, hnI, hnV, hne, hnl]
                        intro hcontra
                        exact absurd (by simpa [charAt] using hb0) hcontra
                      rw [hr]
                      exact outcome_bad _ (b :: rest2) i args
                        ⟨'e', [], rfl,
                          Or.inr (Or.inr (Or.inl ⟨by decide, rfl, Or.inr ⟨b, rfl, hb⟩⟩))⟩
                    · have hb0 : ¬ charAt b 0 = '-' := by
                        cases b with
                        | nil => simp [charAt]; decide
                        | cons b0 b1 => simpa [charAt] using hb
                      have hr : collectLoop (['-', 'e'] :: b :: rest2) i args =
                          collectLoop rest2 (i + 2) (args ||| has_e) := by
                        rw [collectLoop.eq_def]
                        simp [charAt, hnE, hnI, hnV, hne, hnl]
                        intro hcontra
                        exact absurd (by simpa [charAt] using hcontra) hb0
                      rw [hr]
                      have hfold : [['-', 'e'], b].foldl (fun m a => m ||| optionBits a) args
                          = args ||| has_e := by
                        have ho : optionBits ['-', 'e'] = has_e := by decide
                        simp only [List.foldl_cons, List.foldl_nil, optionBits_not_dash b hb, ho,
                          Nat.or_zero]
                      have hn2 : rest2.length < n := by
                        simp only [List.length_cons] at hl
                        omega
                      exact outcome_prepend [['-', 'e'], b] rest2 i args _
                        (fun opts ho => Handled.separate 'e' b opts (by decide) hb ho)
                        (by
                          rw [hfold]
                          exact ih rest2.length hn2 rest2 _ _ (le_refl _)
                            (fun d hd => hrest d (List.mem_cons_of_mem _ hd)))
                | cons y x2 =>
                  have hy : y ≠ NUL := ha y (by simp)
                  have hr : collectLoop (('-' :: 'e' :: y :: x2) :: rest) i args =
                      collectLoop rest (i + 1) (args ||| has_e) := by
                    rw [collectLoop.eq_def]
                    simp [charAt, hy, hnE, hnI, hnV, hne, hnl]
                  rw [hr]
                  have hfold : [('-' :: 'e' :: y :: x2)].foldl
                      (fun m a => m ||| optionBits a) args = args ||| has_e := by
                    simp [optionBits, has_e]
                  exact outcome_prepend [('-' :: 'e' :: y :: x2)] rest i args _
                    (fun opts ho => Handled.attached 'e' (y :: x2) opts (by decide) (by simp) ho)
                    (by rw [hfold]; exact ihrest _ _)
              by_cases hl2 : c1 = 'l'
              · subst hl2
                cases x with
                | nil =>
                  cases rest with
                  | nil =>
                    have hr : collectLoop [['-', 'l']] i args = (has_error, i) := by
                      rw [collectLoop.eq_def]
                      simp [charAt, hnE, hnI, hnV, hne, hnl]
                    rw [hr]
                    exact outcome_bad _ [] i args
                      ⟨'l', [], rfl, Or.inr (Or.inr (Or.inl ⟨by decide, rfl, Or.inl rfl⟩))⟩
                  | cons b rest2 =>
                    by_cases hb : b.head? = some '-'
                    · have hb0 : charAt b 0 = '-' := by
                        cases b with
                        | nil => simp at hb
                        | cons b0 b1 => simpa [charAt] using hb
                      have hr : collectLoop (['-', 'l'] :: b :: rest2) i args =
                          (has_error, i) := by
                        rw [collectLoop.eq_def]
                        simp [charAt, hnE, hnI, hnV, hne, hnl]
                        intro hcontra
                        exact absurd (by simpa [charAt] using hb0) hcontra
                      rw [hr]
                      exact outcome_bad _ (b :: rest2) i args
                        ⟨'l', [], rfl,
                          Or.inr (Or.inr (Or.inl ⟨by decide, rfl, Or.inr ⟨b, rfl, hb⟩⟩))⟩
                    · have hb0 : ¬ charAt b 0 = '-' := by
                        cases b with
                        | nil => simp [charAt]; decide
                        | cons b0 b1 => simpa [charAt] using hb
                      have hr : collectLoop (['-', 'l'] :: b :: rest2) i args =
                          collectLoop rest2 (i + 2) (args) := by
                        rw [collectLoop.eq_def]
                        simp [charAt, hnE, hnI, hnV, hne, hnl]
                        intro hcontra
                        exact absurd (by simpa [charAt] using hcontra) hb0
                      rw [hr]
                      have hfold : [['-', 'l'], b].foldl (fun m a => m ||| optionBits a) args
                          = args := by
                        have ho : optionBits ['-', 'l'] = 0 := by decide
                        simp only [List.foldl_cons, List.foldl_nil, optionBits_not_dash b hb, ho,
                          Nat.or_zero]
                      have hn2 : rest2.length < n := by
                        simp only [List.length_cons] at hl
                        omega
                      exact outcome_prepend [['-', 'l'], b] rest2 i args _
                        (fun opts ho => Handled.separate 'l' b opts (by decide) hb ho)
                        (by
                          rw [hfold]
                          exact ih rest2.length hn2 rest2 _ _ (le_refl _)
                            (fun d hd => hrest d (List.mem_cons_of_mem _ hd)))
                | cons y x2 =>
                  have hy : y ≠ NUL := ha y (by simp)
                  have hr : collectLoop (('-' :: 'l' :: y :: x2) :: rest) i args =
                      collectLoop rest (i + 1) (args) := by
                    rw [collectLoop.eq_def]
                    simp [charAt, hy, hnE, hnI, hnV, hne, hnl]
                  rw [hr]
                  have hfold : [('-' :: 'l' :: y :: x2)].foldl
                      (fun m a => m ||| optionBits a) args = args := by
                    simp [optionBits, has_e]
                  exact outcome_prepend [('-' :: 'l' :: y :: x2)] rest i args _
                    (fun opts ho => Handled.attached 'l' (y :: x2) opts (by decide) (by simp) ho)
                    (by rw [hfold]; exact ihrest _ _)
              have hr : collectLoop (('-' :: c1 :: x) :: rest) i args = (has_error, i) := by
                rw [collectLoop.eq_def]
                simp [charAt, h1, hE, hI, hV, he, hl2, hc1]
              rw [hr]
              exact outcome_bad _ rest i args
                ⟨c1, x, rfl, Or.inr (Or.inr (Or.inr ⟨h1, hE, hI, hV, he, hl2⟩))⟩
        · have hr : collectLoop ((c0 :: t) :: rest) i args = (args, i) := by
            rw [collectLoop.eq_def]
            simp [charAt, h0]
          rw [hr]
          exact outcome_stop _ i args
            (Or.inr ⟨c0 :: t, rest, rfl, Or.inl (by simpa using h0)⟩)

theorem optionBits_values (a : List Char) : optionBits a ∈ [0, 16, 6, 4, 8] := by
  unfold optionBits
  split
  · decide
  · split
    · decide
    · split
      · decide
      · split <;> decide

theorem foldl_optionBits_valid (opts : List (List Char)) :
    ∀ m ∈ [0, 4, 6, 8, 12, 14, 16, 20, 22, 24, 28, 30],
      opts.foldl (fun m a => m ||| optionBits a) m ∈
        [0, 4, 6, 8, 12, 14, 16, 20, 22, 24, 28, 30] := by
  have hstep : ∀ m ∈ [0, 4, 6, 8, 12, 14, 16, 20, 22, 24, 28, 30], ∀ b ∈ [0, 16, 6, 4, 8],
      m ||| b ∈ [0, 4, 6, 8, 12, 14, 16, 20, 22, 24, 28, 30] := by decide
  induction opts with
  | nil => intro m hm; exact hm
  | cons a opts ih =>
    intro m hm
    exact ih _ (hstep m hm _ (optionBits_values a))

theorem valid_mask_shape : ∀ m ∈ [0, 4, 6, 8, 12, 14, 16, 20, 22, 24, 28, 30],
    m ≠ has_error ∧ ∃ bi bv be bE : Bool,
      m = (if bi then has_i else 0) ||| (if bv then has_v else 0) |||
        (if be then has_e else 0) ||| (if bE then has_E else 0) ∧
      (bi = true → bv = true) := by
  decide

/-- C14: for every argv whose first entry is the program name and whose
arguments are C strings: `collectargs` returns either exactly `has_error` or a
mask built only from `has_i`, `has_v`, `has_e`, `has_E`, with `has_i` always
accompanied by `has_v` (the mask is the union of the bits of the options
handled). On a non-error return the arguments before `*first` are handled
options (possibly closed by `--`), and `*first` is the index of the first
argument that is not handled: the script name, which is the first such
argument not starting with a dash, the argument `-`, or the argument following
`--`; or `argc` when there is no script. On an error return the arguments
before `*first` are handled options and `*first` is the index of the bad
option, the argument `pmain` hands to `print_usage`. -/
theorem collectargs_result (prog : List Char) (args : List (List Char))
    (hstr : ∀ a ∈ args, ∀ x ∈ a, x ≠ NUL) :
    ((collectargs (prog :: args)).1 = has_error ∨
      ∃ bi bv be bE : Bool,
        (collectargs (prog :: args)).1 =
          (if bi then has_i else 0) ||| (if bv then has_v else 0) |||
            (if be then has_e else 0) ||| (if bE then has_E else 0) ∧
        (bi = true → bv = true)) ∧
    (collectargs (prog :: args)).2 ≤ (prog :: args).length ∧
    ((collectargs (prog :: args)).1 ≠ has_error →
      ∃ opts rem, Handled opts ∧
        (collectargs (prog :: args)).1 = opts.foldl (fun m a => m ||| optionBits a) 0 ∧
        (prog :: args)[(collectargs (prog :: args)).2]? = rem.head? ∧
        ((args = opts ++ rem ∧ ScriptOrEnd rem ∧
            (collectargs (prog :: args)).2 = 1 + opts.length) ∨
         (args = opts ++ "--".toList :: rem ∧
            (collectargs (prog :: args)).2 = 1 + opts.length + 1))) ∧
    ((collectargs (prog :: args)).1 = has_error →
      ∃ opts bad rem, Handled opts ∧ args = opts ++ bad :: rem ∧ BadOption bad rem.head? ∧
        (collectargs (prog :: args)).2 = 1 + opts.length ∧
        badArgument (prog :: args) = some bad) := by
  have hc : collectargs (prog :: args) = collectLoop args 1 0 := rfl
  have hidx : ∀ (opts rem : List (List Char)) (k : Nat), k = 1 + opts.length →
      (prog :: (opts ++ rem))[k]? = rem.head? := by
    intro opts rem k hk
    subst hk
    rw [Nat.add_comm, List.getElem?_cons_succ, List.getElem?_append_right (le_refl _)]
    simp [List.head?_eq_getElem?]
  have hout := collectLoop_outcome args.length args 1 0 (le_refl _) hstr
  rw [← hc] at hout
  rcases hout with ⟨opts, bad, rem, h1, h2, h3, h4⟩ | ⟨opts, rem, h1, h2, h3⟩
  · have hm : (collectargs (prog :: args)).1 = has_error := by rw [h4]
    have hf : (collectargs (prog :: args)).2 = 1 + opts.length := by rw [h4]
    refine ⟨Or.inl hm, ?_, fun hne => absurd hm hne, fun _ => ?_⟩
    · rw [hf, h2]
      simp only [List.length_cons, List.length_append]
      omega
    · refine ⟨opts, bad, rem, h1, h2, h3, hf, ?_⟩
      simp only [badArgument, hm, beq_self_eq_true, if_true]
      rw [hf, h2]
      exact hidx opts (bad :: rem) _ rfl
  · have hvalid := foldl_optionBits_valid opts 0 (by decide)
    rw [← h2] at hvalid
    obtain ⟨hne, hshape⟩ := valid_mask_shape _ hvalid
    refine ⟨Or.inr hshape, ?_, fun _ => ?_, fun he => absurd he hne⟩
    · rcases h3 with ⟨h5, _, h7⟩ | ⟨h5, h7⟩
      · rw [h7, h5]
        simp only [List.length_cons, List.length_append]
        omega
      · rw [h7, h5]
        simp only [List.length_cons, List.length_append]
        omega
    · rcases h3 with ⟨h5, h6, h7⟩ | ⟨h5, h7⟩
      · refine ⟨opts, rem, h1, h2, ?_, Or.inl ⟨h5, h6, h7⟩⟩
        rw [h7, h5]
        exact hidx opts rem _ rfl
      · refine ⟨opts, rem, h1, h2, ?_, Or.inr ⟨h5, h7⟩⟩
        rw [h7, h5]
        have := hidx (opts ++ ["--".toList]) rem (1 + opts.length + 1)
          (by rw [List.length_append, List.length_singleton, Nat.add_assoc])
        simpa using this

/-- Witness of C14: `lua -i -e x=1 s.lua a`: the mask holds `has_i`, `has_v`
and `has_e`, and the script is argument 4. -/
theorem collectargs_result_witness :
    collectargs ["lua".toList, "-i".toList, "-e".toList, "x=1".toList, "s.lua".toList,
      "a".toList] = (14, 4) ∧
    (collectargs ["lua".toList, "-i".toList, "-e".toList, "x=1".toList, "s.lua".toList,
      "a".toList]).2 ≤ 6 :=
  ⟨by decide,
    (collectargs_result "lua".toList ["-i".toList, "-e".toList, "x=1".toList, "s.lua".toList,
      "a".toList] (by decide)).2.1⟩

theorem collectargs_samples :
    collectargs ["lua".toList] = (0, 1) ∧
    collectargs ["lua".toList, "-".toList] = (0, 1) ∧
    collectargs ["lua".toList, "--".toList] = (0, 2) ∧
    collectargs ["lua".toList, "-E".toList, "--".toList, "-x".toList] = (16, 3) ∧
    collectargs ["lua".toList, "-v".toList, "-e".toList, "-x".toList] = (1, 2) ∧
    badArgument ["lua".toList, "-v".toList, "-e".toList, "-x".toList] = some "-e".toList ∧
    collectargs ["lua".toList, "-lfoo".toList, "-l".toList, "bar".toList, "-ix".toList]
      = (1, 4) ∧
    collectargs ["lua".toList, "-i".toList, "-x".toList] = (1, 2) := by
  decide

end Apollo
